import Mathlib

/-!
# Telemetry generator: emission loop

A shallow embedding of `test-app/main.go` and the properties of its emission loop.

* Floating point.  A finite `float64` is an integer multiple of `2^-1074`; it is held as that
  integer (`F64.fin n` stands for `n * 2^-1074`).  Sums and products of such integers are exact,
  and `rndNat` rounds an exact result to the nearest value with a 53 bit significand, ties to
  even, as IEEE 754 binary64 arithmetic does.  The sign of zero is not tracked: the comparison
  operators of Go do not distinguish `-0` from `+0`, and no result below depends on it.
  Go allows `x*y + z` to be evaluated with one rounding or with two; the results are stated for
  both (`fused`).
* Integers.  The loop variable `i` is a Go `int` (64 bits); `i++` wraps (`wrapInt`).
* Time.  Every goroutine carries a virtual clock counted in seconds.  `time.Sleep(d)` advances
  the clock of the goroutine that calls it by `d`; every other statement takes no time, and a
  goroutine launched by a `go` statement starts at the clock value of the statement.
* Randomness.  The values returned by `rand.Float64()` and `rand.Intn(n)` are inputs of the
  model (`Draws`), since the generator state is internal to `math/rand`.
* Libraries.  The Prometheus client, zap and OpenTelemetry calls are recorded as events; the
  effect of the metric calls on the registry follows the documented behaviour of the client.
-/

namespace Telemetry

/-! ## float64 -/

/-- Bit length of a number below `2^f`, one bit per step. -/
def bitLenSmall : Nat → Nat → Nat
  | 0, _ => 0
  | f + 1, a => if a = 0 then 0 else bitLenSmall f (a / 2) + 1

/-- Bit length with explicit fuel, 64 bits per step: `bitLenAux f a` is the number of binary
digits of `a` whenever `a ≤ f`. -/
def bitLenAux : Nat → Nat → Nat
  | 0, _ => 0
  | f + 1, a => if a < 2 ^ 64 then bitLenSmall 64 a else bitLenAux f (a / 2 ^ 64) + 64

/-- Number of binary digits of `a` (`0` for `a = 0`). -/
def bitLen (a : Nat) : Nat := bitLenAux a a

/-- Round `a / 2^t` to the nearest integer, ties to the even one. -/
def roundNE (a t : Nat) : Nat :=
  let m := a / 2 ^ t
  let r := a % 2 ^ t
  if 2 * r < 2 ^ t then m
  else if 2 ^ t < 2 * r then m + 1
  else if m % 2 = 0 then m else m + 1

/-- Round the exact magnitude `a / 2^s` (in units of `2^-1074`) to binary64: at least the `s`
fractional bits are dropped, and as many more as are needed to keep 53 significant bits.  The
result is again a number of units. -/
def rndNat (a s : Nat) : Nat :=
  let t := max s (bitLen a - 53)
  roundNE a t * 2 ^ (t - s)

/-- A `float64` value: NaN, an infinity, or the finite value `n * 2^-1074`. -/
inductive F64 where
  | nan : F64
  | inf (neg : Bool) : F64
  | fin (n : Int) : F64
deriving DecidableEq, Repr

namespace F64

/-- The `float64` nearest to the exact value `z / 2^s` units; magnitudes that round to
`2^1024` or more overflow to an infinity. -/
def ofExact (z : Int) (s : Nat) : F64 :=
  let q := rndNat z.natAbs s
  if 2 ^ 2098 ≤ q then inf (decide (z < 0))
  else fin (if z < 0 then -(q : Int) else (q : Int))

/-- Conversion of an integer constant. -/
def ofInt (k : Int) : F64 := ofExact (k * 2 ^ 1074) 0

/-- Conversion of the decimal constant `p / q` (`q > 0`): the quotient is taken with 64 guard
bits and a sticky bit, then rounded. -/
def ofFrac (p q : Nat) : F64 :=
  let a := p * 2 ^ (1074 + 64) / q
  let sticky := if p * 2 ^ (1074 + 64) % q = 0 then 0 else 1
  ofExact ((2 * a + sticky : Nat) : Int) 65

/-- Unary minus. -/
def neg : F64 → F64
  | nan => nan
  | inf b => inf (!b)
  | fin n => fin (-n)

/-- Go `x + y` on `float64`. -/
def add : F64 → F64 → F64
  | nan, _ => nan
  | _, nan => nan
  | inf a, inf b => if a = b then inf a else nan
  | inf a, fin _ => inf a
  | fin _, inf b => inf b
  | fin x, fin y => ofExact (x + y) 0

/-- Go `x - y` on `float64`. -/
def sub (x y : F64) : F64 := add x (neg y)

/-- Go `x * y` on `float64`. -/
def mul : F64 → F64 → F64
  | nan, _ => nan
  | _, nan => nan
  | inf a, inf b => inf (xor a b)
  | inf a, fin y => if y = 0 then nan else inf (xor a (decide (y < 0)))
  | fin x, inf b => if x = 0 then nan else inf (xor (decide (x < 0)) b)
  | fin x, fin y => ofExact (x * y) 1074

/-- Go `x*y + z`.  The language lets an implementation fuse the two operations and round once;
`fused` selects that evaluation, otherwise the product is rounded before the sum.  Which of
the two is used is a property of the compiled program, the same at every `x*y + z`.  (When
`x` or `y` is not finite, or `z` is NaN, no rounding takes place and both agree.) -/
def mulAdd (fused : Bool) : F64 → F64 → F64 → F64
  | fin x, fin y, fin z =>
    if fused then ofExact (x * y + z * 2 ^ 1074) 1074 else add (mul (fin x) (fin y)) (fin z)
  | fin x, fin y, inf b =>
    if fused then inf b else add (mul (fin x) (fin y)) (inf b)
  | x, y, z => add (mul x y) z

/-- Go `x <= y` on `float64`. -/
def le : F64 → F64 → Bool
  | nan, _ => false
  | _, nan => false
  | inf a, inf b => a || !b
  | inf a, fin _ => a
  | fin _, inf b => !b
  | fin x, fin y => decide (x ≤ y)

/-- Go `x < y` on `float64`. -/
def lt : F64 → F64 → Bool
  | nan, _ => false
  | _, nan => false
  | inf a, inf b => a && !b
  | inf a, fin _ => a
  | fin _, inf b => !b
  | fin x, fin y => decide (x < y)

/-- The finite values that are `float64` numbers: those that rounding leaves unchanged and that
lie below `2^1024`. -/
def isFloat : F64 → Bool
  | fin n => decide (rndNat n.natAbs 0 = n.natAbs) && decide (n.natAbs < 2 ^ 2098)
  | _ => false

/-- The number of units `2^-1074` in a finite value (`0` for NaN and the infinities). -/
def units : F64 → Int
  | fin n => n
  | _ => 0

/-- What `rand.Float64()` may return: a `float64` in the half-open interval `[0.0, 1.0)`. -/
def isUnitDraw (r : F64) : Bool := isFloat r && le (ofInt 0) r && lt r (ofInt 1)

end F64

/-- The largest `float64` below `1.0`, namely `1 - 2^-53`.  `rand.Float64` returns the
quotient `float64(r.Int63()) / (1 << 63)` unless it is `1.0`; this is the last value it can
return. -/
def topDraw : F64 := F64.fin ((2 ^ 53 - 1) * 2 ^ 1021)

/-- The largest finite `float64`, `(2^53 - 1) * 2^971`. -/
def maxFloat : F64 := F64.fin ((2 ^ 53 - 1) * 2 ^ 2045)

/-- Source: `func randomFloat(min, max float64) float64` returns
`min + rand.Float64()*(max-min)`; `r` is the value `rand.Float64()` returned. -/
def randomFloat (fused : Bool) (min max r : F64) : F64 :=
  F64.mulAdd fused r (F64.sub max min) min

/-! ## Integers and strings -/

/-- Two's complement wrap-around of a 64 bit Go `int`. -/
def wrapInt (z : Int) : Int := (z + 2 ^ 63) % 2 ^ 64 - 2 ^ 63

/-- Library `strconv.Itoa`: the decimal representation of an `int`. -/
def Itoa (i : Int) : String :=
  if i < 0 then "-" ++ Nat.repr i.natAbs else Nat.repr i.toNat

/-- Source: `endpoints := []string{"/foo", "/bar", "/baz"}`. -/
def endpoints : List String := ["/foo", "/bar", "/baz"]

/-! ## Events -/

/-- Log levels of zap. -/
inductive Level where
  | debug | info | warn | error
deriving DecidableEq, Repr

/-- A structured log field (`zap.Int`, `zap.Float64`). -/
inductive Field where
  | int (key : String) (v : Int)
  | float64 (key : String) (v : F64)
deriving DecidableEq, Repr

/-- A span object returned by `tracer.Start`.  Every call of `tracer.Start` makes a new span;
the spans of the loop are told apart by the pass that started them (`pass = none` for the
span started in `main`). -/
structure Span where
  name : String
  pass : Option Nat
deriving DecidableEq, Repr

/-- The goroutines of the program: `main`, the emission loop, and the goroutines started by
`go op1(ctx, name)` in the `doRequest` call of a pass. -/
inductive Gor where
  | main
  | loop
  | worker (pass : Nat) (name : String)
deriving DecidableEq, Repr

/-- Observable calls. -/
inductive Event where
  | counterAdd (endpoint : String) (v : Nat)
  | observe (label : String) (v : F64)
  | log (level : Level) (msg : String) (fields : List Field)
  | gaugeSet (v : F64)
  | spanStart (s : Span) (parent : Option Span)
  | spanEnd (s : Span)
  | goStmt (g : Gor)
  | sleep (d : Nat)
  | call (name : String)
deriving DecidableEq, Repr

/-- An event with the virtual time at which it happens and the goroutine that performs it. -/
structure Timed where
  time : Nat
  gor : Gor
  ev : Event
deriving DecidableEq, Repr

/-! ## Function activations: statements, `defer`, `log.Fatal` -/

/-- The statements that matter for the trace. -/
inductive Op where
  | emit (e : Event)
  | wait (d : Nat)
  | deferCall (e : Event)
  | fatal
  | block
deriving DecidableEq, Repr

/-- How far an activation got. -/
inductive Status where
  | running | exited | blocked
deriving DecidableEq, Repr

/-- State of a function activation: the clock of its goroutine, what it has emitted, the calls
it has deferred (latest first) and its status. -/
structure Act where
  clock : Nat
  trace : List Timed
  defers : List Event
  status : Status
deriving DecidableEq, Repr

/-- A fresh activation at clock `t`. -/
def Act.start (t : Nat) : Act := ⟨t, [], [], Status.running⟩

/-- One statement.  `wait d` lets `d` seconds pass; `deferCall` pushes a deferred call;
`fatal` is `log.Fatal`, which logs and calls `os.Exit(1)`: the process ends at once and
deferred calls are not run; `block` is a call that never returns. -/
def Act.step (g : Gor) (a : Act) : Op → Act
  | Op.emit e => { a with trace := a.trace ++ [⟨a.clock, g, e⟩] }
  | Op.wait d => { a with clock := a.clock + d }
  | Op.deferCall e => { a with defers := e :: a.defers }
  | Op.fatal =>
    { a with trace := a.trace ++ [⟨a.clock, g, Event.call "log.Fatal"⟩], status := Status.exited }
  | Op.block => { a with status := Status.blocked }

/-- Statements in sequence; nothing runs after the process has exited or the goroutine has
blocked for good. -/
def Act.run (g : Gor) (a : Act) (ops : List Op) : Act :=
  ops.foldl (fun b op => if b.status = Status.running then b.step g op else b) a

/-- Function return: the deferred calls run, latest first.  They run only if the function
does return. -/
def Act.ret (g : Gor) (a : Act) : Act :=
  if a.status = Status.running then
    { a with trace := a.trace ++ a.defers.map (fun e => ⟨a.clock, g, e⟩), defers := [] }
  else a

/-- A function called at state `a`: its body runs with its own list of deferred calls, which
run when it returns; the deferred calls of the caller stay pending. -/
def Act.call (g : Gor) (a : Act) (body : List Op) : Act :=
  let b := ((Act.run g { a with defers := [] } body).ret g)
  { b with defers := a.defers }

/-- Library `time.Sleep(d)`, `d` in seconds. -/
def sleepOps (d : Nat) : List Op := [Op.emit (Event.sleep d), Op.wait d]

/-! ## Tracing code -/

/-- The span started by `tracer.Start(ctx, "main")`. -/
def mainSpan : Span := ⟨"main", none⟩

/-- The span started by `tracer.Start(ctx, "do-request")` in the given pass. -/
def rootSpan (pass : Nat) : Span := ⟨"do-request", some pass⟩

/-- Source: `func op1(ctx, name)`: start a span under `ctx`, defer its end, sleep 2 s. -/
def op1 (pass : Nat) (name : String) : List Op :=
  [Op.emit (Event.spanStart ⟨name, some pass⟩ (some (rootSpan pass))),
   Op.deferCall (Event.spanEnd ⟨name, some pass⟩)]
  ++ sleepOps 2

/-- Source: `func doRequest(ctx)`: start the span "do-request", defer its end, launch
`op1(ctx, "work1")` and `op1(ctx, "work2")` with `go`, sleep 1 s. -/
def doRequest (pass : Nat) : List Op :=
  [Op.emit (Event.spanStart (rootSpan pass) (some mainSpan)),
   Op.deferCall (Event.spanEnd (rootSpan pass)),
   Op.emit (Event.goStmt (Gor.worker pass "work1")),
   Op.emit (Event.goStmt (Gor.worker pass "work2"))]
  ++ sleepOps 1

/-- The goroutine that a `go` statement launches, run to its end; it starts at the time of
the statement. -/
def goroutineTrace : Timed → List Timed
  | ⟨t, _, Event.goStmt (Gor.worker p n)⟩ =>
    (Act.call (Gor.worker p n) (Act.start t) (op1 p n)).trace
  | _ => []

/-- The traces of all goroutines launched in `tr`. -/
def workersTrace (tr : List Timed) : List Timed := (tr.map goroutineTrace).flatten

/-! ## Metrics registry (Prometheus client) -/

/-- Library `prometheus.LinearBuckets(start, width, count)`: `count` upper bounds, the first
is `start`, each next one is the previous plus `width` (a `float64` sum). -/
def LinearBuckets (start width : F64) : Nat → List F64
  | 0 => []
  | n + 1 => start :: LinearBuckets (F64.add start width) width n

/-- Source: `Buckets: prometheus.LinearBuckets(0.05, 0.05, 20)`. -/
def upperBounds : List F64 := LinearBuckets (F64.ofFrac 1 20) (F64.ofFrac 1 20) 20

/-- Library: the bucket of an observation is the first one whose upper bound `b` satisfies
`v <= b` (upper bounds are inclusive); when there is none the result is the number of bounds,
which stands for the implicit `+Inf` bucket. -/
def findBucket : List F64 → F64 → Nat
  | [], _ => 0
  | b :: bs, v => if F64.le v b then 0 else findBucket bs v + 1

/-- Add one at position `k` of a list of counters (no change when `k` is out of range). -/
def bump : List Nat → Nat → List Nat
  | [], _ => []
  | c :: cs, 0 => (c + 1) :: cs
  | c :: cs, k + 1 => c :: bump cs k

/-- One histogram series: a counter per upper bound, the number of observations and their
sum.  An observation beyond the last bound is counted in `count` only. -/
structure Histogram where
  buckets : List Nat
  count : Nat
  sum : F64
deriving DecidableEq, Repr

/-- A series without observations. -/
def Histogram.empty : Histogram := ⟨List.replicate upperBounds.length 0, 0, F64.ofInt 0⟩

/-- Library `Observe(v)`. -/
def Histogram.observe (h : Histogram) (v : F64) : Histogram :=
  ⟨bump h.buckets (findBucket upperBounds v), h.count + 1, F64.add h.sum v⟩

/-- The three metrics of the program: the counter vector `requests` by endpoint, the gauge
`temperature`, the histogram vector `requestDuration` by iteration label. -/
structure Registry where
  requests : String → Nat
  temperature : F64
  requestDuration : String → Histogram

/-- The registry after `MustRegister`: no request counted, gauge at zero, no observation. -/
def Registry.init : Registry := ⟨fun _ => 0, F64.ofInt 0, fun _ => Histogram.empty⟩

/-- Effect of an event on the registry: `Add` adds to the counter of the label, `Observe`
goes to the histogram of the label, `Set` replaces the value of the gauge. -/
def Registry.apply (r : Registry) : Event → Registry
  | Event.counterAdd l v =>
    { r with requests := fun x => if x = l then r.requests x + v else r.requests x }
  | Event.observe l v =>
    { r with requestDuration :=
        fun x => if x = l then (r.requestDuration x).observe v else r.requestDuration x }
  | Event.gaugeSet v => { r with temperature := v }
  | _ => r

/-! ## The emission loop -/

/-- The values the random generator hands out in one pass, in the order of the calls:
`rand.Float64()` inside `randomFloat(0, 1)`, `rand.Intn(len(endpoints))`, and the
`rand.Float64()` of the temperature. -/
structure Draws where
  latency : F64
  idx : Nat
  temp : F64
deriving DecidableEq, Repr

/-- State of the loop goroutine: the loop variable `i`, the number of completed passes, the
clock, the registry, and everything the goroutine has emitted. -/
structure LoopState where
  i : Int
  pass : Nat
  clock : Nat
  reg : Registry
  trace : List Timed

/-- The loop goroutine when `go func()` launches it at time `t0`: `i := 0`. -/
def LoopState.init (t0 : Nat) : LoopState := ⟨0, 0, t0, Registry.init, []⟩

/-- Source: `latency := randomFloat(0, 1)`. -/
def latencyOf (fused : Bool) (d : Draws) : F64 :=
  randomFloat fused (F64.ofInt 0) (F64.ofInt 1) d.latency

/-- Source: the argument of `temperature.Set`, `20 + rand.Float64()*10`. -/
def temperatureOf (fused : Bool) (d : Draws) : F64 :=
  F64.mulAdd fused d.temp (F64.ofInt 10) (F64.ofInt 20)

/-- Source: the four telemetry calls of the loop body, in program order:
`requests.WithLabelValues(req).Add(1)`,
`requestDuration.WithLabelValues(strconv.Itoa(i)).Observe(latency)`,
`lg.Info("in progress ...", zap.Int("iteration", i), zap.Float64("latency", latency))`,
`temperature.Set(20 + rand.Float64()*10)`. -/
def metricOps (fused : Bool) (i : Int) (d : Draws) (req : String) : List Op :=
  [Op.emit (Event.counterAdd req 1),
   Op.emit (Event.observe (Itoa i) (latencyOf fused d)),
   Op.emit (Event.log Level.info "in progress ..."
     [Field.int "iteration" i, Field.float64 "latency" (latencyOf fused d)]),
   Op.emit (Event.gaugeSet (temperatureOf fused d))]

/-- Source: the loop body once the endpoint `req` is chosen: the telemetry calls, then the
call `doRequest(ctx)`, then `time.Sleep(2 * time.Second)`. -/
def tickAct (fused : Bool) (s : LoopState) (d : Draws) (req : String) : Act :=
  let a1 := Act.run Gor.loop (Act.start s.clock) (metricOps fused s.i d req)
  let a2 := Act.call Gor.loop a1 (doRequest s.pass)
  Act.run Gor.loop a2 (sleepOps 2)

/-- Source: one pass of `for i := 0; ; i++`.  The slice access `endpoints[idx]` fails
(run-time panic) when the index is out of range; otherwise the body runs, its events reach
the registry, and `i++` is applied. -/
def tick (fused : Bool) (d : Draws) (s : LoopState) : Option LoopState :=
  match endpoints[d.idx]? with
  | none => none
  | some req =>
    let a := tickAct fused s d req
    some { i := wrapInt (s.i + 1)
           pass := s.pass + 1
           clock := a.clock
           reg := a.trace.foldl (fun r e => r.apply e.ev) s.reg
           trace := s.trace ++ a.trace }

/-- The loop run for as many passes as there are draws. -/
def runLoop (fused : Bool) : List Draws → LoopState → Option LoopState
  | [], s => some s
  | d :: ds, s => (tick fused d s).bind (runLoop fused ds)

/-! ## `main` -/

/-- What the environment does to `main`: whether `otlptracegrpc.New` fails, and whether and
when `http.ListenAndServe` returns (`none`: it serves forever; `some true`: it returns an
error; `some false`: it returns `nil`). -/
structure Env where
  exporterFails : Bool
  listen : Option Bool
  listenAfter : Nat
deriving DecidableEq, Repr

/-- Source: `func initTracer()`: `log.Fatal(err)` when the exporter cannot be made, else the
tracer provider is installed. -/
def initTracer (env : Env) : List Op :=
  if env.exporterFails then [Op.fatal] else [Op.emit (Event.call "otel.SetTracerProvider")]

/-- Source: `func main()`. -/
def main (env : Env) : List Op :=
  initTracer env ++
  [Op.deferCall (Event.call "shutdown"),
   Op.emit (Event.spanStart mainSpan none),
   Op.deferCall (Event.spanEnd mainSpan),
   Op.deferCall (Event.call "lg.Sync"),
   Op.emit (Event.call "prometheus.MustRegister"),
   Op.emit (Event.call "prometheus.MustRegister"),
   Op.emit (Event.call "prometheus.MustRegister"),
   Op.emit (Event.goStmt Gor.loop),
   Op.emit (Event.call "http.Handle"),
   Op.emit (Event.call "log.Println"),
   Op.emit (Event.call "http.ListenAndServe")] ++
  (match env.listen with
   | none => [Op.block]
   | some true => [Op.wait env.listenAfter, Op.fatal]
   | some false => [Op.wait env.listenAfter])

/-- The run of `main` from time `0` to its end. -/
def mainAct (env : Env) : Act := Act.call Gor.main (Act.start 0) (main env)

/-- Number of times the span `s` is started in a trace. -/
def startCount (s : Span) (tr : List Timed) : Nat :=
  (tr.filter (fun e => match e.ev with
    | Event.spanStart x _ => decide (x = s)
    | _ => false)).length

/-- Number of times the span `s` is ended in a trace. -/
def endCount (s : Span) (tr : List Timed) : Nat :=
  (tr.filter (fun e => decide (e.ev = Event.spanEnd s))).length

/-! ## Reading a trace -/

/-- The histogram observations of a trace, in order: label and value. -/
def observations (tr : List Timed) : List (String × F64) :=
  tr.filterMap (fun e => match e.ev with
    | Event.observe l v => some (l, v)
    | _ => none)

/-- The counter increments of a trace, in order: label and amount. -/
def counterAdds (tr : List Timed) : List (String × Nat) :=
  tr.filterMap (fun e => match e.ev with
    | Event.counterAdd l v => some (l, v)
    | _ => none)

/-- The log records of a trace, in order. -/
def logRecords (tr : List Timed) : List (Level × String × List Field) :=
  tr.filterMap (fun e => match e.ev with
    | Event.log lv msg fs => some (lv, msg, fs)
    | _ => none)

/-- The times at which the span `s` is ended in a trace. -/
def endTimes (s : Span) (tr : List Timed) : List Nat :=
  (tr.filter (fun e => decide (e.ev = Event.spanEnd s))).map (fun e => e.time)

/-- Number of passes, among those with the given draws, in which the endpoint `l` is chosen. -/
def chosen (l : String) (ds : List Draws) : Nat :=
  ds.countP (fun d => decide (endpoints[d.idx]? = some l))

/-- A sample pass: draw `0.37` for the latency, index `1` (the endpoint "/bar"), and the
largest draw for the temperature. -/
def sampleDraw : Draws := ⟨F64.ofFrac 37 100, 1, topDraw⟩

/-- A sample sequence of three passes. -/
def sampleDraws : List Draws :=
  [sampleDraw, ⟨F64.ofInt 0, 0, F64.ofInt 0⟩, ⟨topDraw, 2, F64.ofFrac 1 2⟩]

/-! ## Rounding: helper lemmas -/

theorem bitLenSmall_zero (f : Nat) : bitLenSmall f 0 = 0 := by
  cases f <;> simp [bitLenSmall]

theorem bitLenSmall_spec : ∀ f a : Nat, a < 2 ^ f →
    a < 2 ^ bitLenSmall f a ∧ (a ≠ 0 → 2 ^ (bitLenSmall f a - 1) ≤ a) := by
  intro f
  induction f with
  | zero =>
    intro a ha
    have : a = 0 := by simpa using ha
    subst this
    simp [bitLenSmall]
  | succ f ih =>
    intro a ha
    by_cases h0 : a = 0
    · subst h0
      simp [bitLenSmall]
    · have hle : a / 2 < 2 ^ f := by
        rw [pow_succ] at ha
        omega
      obtain ⟨h1, h2⟩ := ih (a / 2) hle
      simp only [bitLenSmall, h0, if_false, Nat.add_sub_cancel]
      refine ⟨?_, fun _ => ?_⟩
      · rw [pow_succ]
        omega
      · by_cases h3 : a / 2 = 0
        · rw [h3, bitLenSmall_zero]
          simp
          omega
        · have h4 := h2 h3
          have h5 : bitLenSmall f (a / 2) ≠ 0 := by
            intro h
            rw [h] at h1
            simp at h1
            exact h3 h1
          have h6 : 2 ^ bitLenSmall f (a / 2) = 2 * 2 ^ (bitLenSmall f (a / 2) - 1) := by
            rw [← pow_succ']
            congr 1
            omega
          rw [h6]
          omega

theorem bitLenAux_spec : ∀ f a : Nat, a ≤ f →
    a < 2 ^ bitLenAux f a ∧ (a ≠ 0 → 2 ^ (bitLenAux f a - 1) ≤ a) := by
  intro f
  induction f with
  | zero =>
    intro a ha
    have : a = 0 := by omega
    subst this
    simp [bitLenAux]
  | succ f ih =>
    intro a ha
    by_cases hs : a < 2 ^ 64
    · simp only [bitLenAux, hs, if_true]
      exact bitLenSmall_spec 64 a hs
    · have hp : 0 < 2 ^ 64 := Nat.two_pow_pos 64
      have hq0 : a / 2 ^ 64 ≠ 0 := by
        intro h
        rw [Nat.div_eq_zero_iff hp] at h
        exact hs h
      have hle : a / 2 ^ 64 ≤ f := by
        have : a / 2 ^ 64 < a := Nat.div_lt_self (by omega) (by norm_num)
        omega
      obtain ⟨h1, h2⟩ := ih (a / 2 ^ 64) hle
      have h3 := h2 hq0
      have hk : bitLenAux f (a / 2 ^ 64) ≠ 0 := by
        intro h
        rw [h] at h1
        simp at h1
        exact hq0 h1
      simp only [bitLenAux, hs, if_false]
      refine ⟨?_, fun _ => ?_⟩
      · rw [pow_add]
        have := (Nat.div_lt_iff_lt_mul hp).1 h1
        exact this
      · have e : bitLenAux f (a / 2 ^ 64) + 64 - 1 = (bitLenAux f (a / 2 ^ 64) - 1) + 64 := by
          omega
        rw [e, pow_add]
        exact (Nat.le_div_iff_mul_le hp).1 h3

theorem bitLen_zero : bitLen 0 = 0 := rfl

theorem lt_two_pow_bitLen (a : Nat) : a < 2 ^ bitLen a :=
  (bitLenAux_spec a a (Nat.le_refl a)).1

theorem two_pow_bitLen_le (a : Nat) (h : a ≠ 0) : 2 ^ (bitLen a - 1) ≤ a :=
  (bitLenAux_spec a a (Nat.le_refl a)).2 h

theorem bitLen_le_iff (a n : Nat) : bitLen a ≤ n ↔ a < 2 ^ n := by
  constructor
  · intro h
    exact lt_of_lt_of_le (lt_two_pow_bitLen a) (Nat.pow_le_pow_right (by norm_num) h)
  · intro h
    by_contra hn
    have h0 : a ≠ 0 := by
      intro h0
      subst h0
      simp [bitLen_zero] at hn
    have h1 := two_pow_bitLen_le a h0
    have h2 : 2 ^ n ≤ 2 ^ (bitLen a - 1) := Nat.pow_le_pow_right (by norm_num) (by omega)
    omega

theorem lt_bitLen_iff (a n : Nat) : n < bitLen a ↔ 2 ^ n ≤ a := by
  rw [← not_iff_not, not_lt, not_le, bitLen_le_iff]

theorem roundNE_ge (a t : Nat) : a / 2 ^ t ≤ roundNE a t := by
  unfold roundNE
  simp only
  split_ifs <;> omega

theorem roundNE_le (a t : Nat) : roundNE a t ≤ a / 2 ^ t + 1 := by
  unfold roundNE
  simp only
  split_ifs <;> omega

theorem roundNE_of_dvd (a t : Nat) (h : 2 ^ t ∣ a) : roundNE a t = a / 2 ^ t := by
  unfold roundNE
  have hr : a % 2 ^ t = 0 := Nat.mod_eq_zero_of_dvd h
  have hp : 0 < 2 ^ t := Nat.two_pow_pos t
  simp only [hr]
  simp [hp]

theorem rndNat_eq (x s : Nat) :
    rndNat x s = roundNE x (max s (bitLen x - 53)) * 2 ^ (max s (bitLen x - 53) - s) := rfl

theorem rep_iff_dvd (c : Nat) : rndNat c 0 = c ↔ 2 ^ (bitLen c - 53) ∣ c := by
  rw [rndNat_eq]
  simp only [Nat.zero_max, Nat.sub_zero]
  constructor
  · intro h
    exact Dvd.intro_left _ h
  · intro h
    rw [roundNE_of_dvd _ _ h]
    exact Nat.div_mul_cancel h

theorem rep_dvd (c u : Nat) (h : rndNat c 0 = c) (hu : 2 ^ (52 + u) ≤ c) : 2 ^ u ∣ c := by
  have h1 : 52 + u < bitLen c := (lt_bitLen_iff c (52 + u)).2 hu
  exact Dvd.dvd.trans (Nat.pow_dvd_pow 2 (by omega)) ((rep_iff_dvd c).1 h)

theorem rep_of_lt (m t : Nat) (h : m < 2 ^ 53) : rndNat (m * 2 ^ t) 0 = m * 2 ^ t := by
  rw [rep_iff_dvd]
  have h1 : m * 2 ^ t < 2 ^ (53 + t) := by
    rw [pow_add]
    exact Nat.mul_lt_mul_of_pos_right h (Nat.two_pow_pos t)
  have h2 : bitLen (m * 2 ^ t) ≤ 53 + t := (bitLen_le_iff _ _).2 h1
  exact Dvd.dvd.trans (Nat.pow_dvd_pow 2 (by omega)) (Dvd.intro_left m rfl)

/-- Rounding does not cross a representable value from below. -/
theorem rndNat_le_of_le (x s c : Nat) (hc : rndNat c 0 = c) (h : x ≤ c * 2 ^ s) :
    rndNat x s ≤ c := by
  rw [rndNat_eq]
  obtain ⟨u, hu⟩ : ∃ u, max s (bitLen x - 53) = u + s := ⟨max s (bitLen x - 53) - s, by omega⟩
  rw [hu, Nat.add_sub_cancel]
  by_cases hd : 2 ^ u ∣ c
  · obtain ⟨c', rfl⟩ := hd
    have hx : x ≤ 2 ^ (u + s) * c' := by
      rw [pow_add]
      calc x ≤ 2 ^ u * c' * 2 ^ s := h
        _ = 2 ^ u * 2 ^ s * c' := by ring
    have hm : x / 2 ^ (u + s) ≤ c' := Nat.div_le_of_le_mul hx
    rcases Nat.lt_or_ge (x / 2 ^ (u + s)) c' with hlt | hge
    · have := roundNE_le x (u + s)
      calc roundNE x (u + s) * 2 ^ u ≤ c' * 2 ^ u := Nat.mul_le_mul_right _ (by omega)
        _ = 2 ^ u * c' := by ring
    · have hxe : x = 2 ^ (u + s) * c' := by
        have h1 : 2 ^ (u + s) * (x / 2 ^ (u + s)) ≤ x := Nat.mul_div_le x _
        have h2 : 2 ^ (u + s) * c' ≤ 2 ^ (u + s) * (x / 2 ^ (u + s)) :=
          Nat.mul_le_mul_left _ hge
        omega
      have hdv : 2 ^ (u + s) ∣ x := Dvd.intro _ hxe.symm
      rw [roundNE_of_dvd _ _ hdv]
      have : x / 2 ^ (u + s) = c' := by omega
      rw [this]
      exact le_of_eq (by ring)
  · exfalso
    have hclt : c < 2 ^ (52 + u) := by
      by_contra hn
      exact hd (rep_dvd c u hc (by omega))
    have hu0 : u ≠ 0 := by
      intro h0
      subst h0
      simp at hd
    have hb : bitLen x = u + s + 53 := by omega
    have hx0 : 2 ^ (u + s + 52) ≤ x := (lt_bitLen_iff x _).1 (by omega)
    have : c * 2 ^ s < 2 ^ (52 + u) * 2 ^ s :=
      Nat.mul_lt_mul_of_pos_right hclt (Nat.two_pow_pos s)
    rw [← pow_add] at this
    have he : 52 + u + s = u + s + 52 := by omega
    rw [he] at this
    omega

/-- Rounding does not cross a representable value from above. -/
theorem le_rndNat_of_le (x s c : Nat) (hc : rndNat c 0 = c) (h : c * 2 ^ s ≤ x) :
    c ≤ rndNat x s := by
  rw [rndNat_eq]
  obtain ⟨u, hu⟩ : ∃ u, max s (bitLen x - 53) = u + s := ⟨max s (bitLen x - 53) - s, by omega⟩
  rw [hu, Nat.add_sub_cancel]
  by_cases hd : 2 ^ u ∣ c
  · obtain ⟨c', rfl⟩ := hd
    have hx : c' * 2 ^ (u + s) ≤ x := by
      rw [pow_add]
      calc c' * (2 ^ u * 2 ^ s) = 2 ^ u * c' * 2 ^ s := by ring
        _ ≤ x := h
    have hm : c' ≤ x / 2 ^ (u + s) := (Nat.le_div_iff_mul_le (Nat.two_pow_pos _)).2 hx
    have := roundNE_ge x (u + s)
    calc 2 ^ u * c' = c' * 2 ^ u := by ring
      _ ≤ roundNE x (u + s) * 2 ^ u := Nat.mul_le_mul_right _ (by omega)
  · have hclt : c < 2 ^ (52 + u) := by
      by_contra hn
      exact hd (rep_dvd c u hc (by omega))
    have hu0 : u ≠ 0 := by
      intro h0
      subst h0
      simp at hd
    have hb : bitLen x = u + s + 53 := by omega
    have hx0 : 2 ^ (u + s + 52) ≤ x := (lt_bitLen_iff x _).1 (by omega)
    have hm : 2 ^ 52 ≤ x / 2 ^ (u + s) := by
      rw [Nat.le_div_iff_mul_le (Nat.two_pow_pos _), ← pow_add]
      have he : 52 + (u + s) = u + s + 52 := by omega
      rw [he]
      exact hx0
    have := roundNE_ge x (u + s)
    have h3 : 2 ^ 52 * 2 ^ u ≤ roundNE x (u + s) * 2 ^ u := Nat.mul_le_mul_right _ (by omega)
    rw [← pow_add] at h3
    omega

theorem mulAdd_fused (x y z : Int) :
    F64.mulAdd true (F64.fin x) (F64.fin y) (F64.fin z)
      = F64.ofExact (x * y + z * 2 ^ 1074) 1074 := by
  rw [F64.mulAdd, if_pos rfl]

theorem mulAdd_unfused (x y z : Int) :
    F64.mulAdd false (F64.fin x) (F64.fin y) (F64.fin z)
      = F64.add (F64.mul (F64.fin x) (F64.fin y)) (F64.fin z) := by
  rw [F64.mulAdd, if_neg Bool.false_ne_true]

theorem mul_fin (x y : Int) : F64.mul (F64.fin x) (F64.fin y) = F64.ofExact (x * y) 1074 := by
  rw [F64.mul]

theorem add_fin (x y : Int) : F64.add (F64.fin x) (F64.fin y) = F64.ofExact (x + y) 0 := by
  rw [F64.add]

theorem sub_fin (x y : Int) : F64.sub (F64.fin x) (F64.fin y) = F64.ofExact (x + -y) 0 := by
  rw [F64.sub, F64.neg, F64.add]

theorem ofExact_nonneg (z : Nat) (s : Nat) (h : rndNat z s < 2 ^ 2098) :
    F64.ofExact (z : Int) s = F64.fin (rndNat z s : Nat) := by
  unfold F64.ofExact
  have h1 : ¬ ((z : Int) < 0) := by omega
  simp only [Int.natAbs_ofNat, h1, if_false]
  rw [if_neg (by omega)]

theorem ofExact_neg (z : Nat) (s : Nat) (hz : 0 < z) (h : rndNat z s < 2 ^ 2098) :
    F64.ofExact (-(z : Int)) s = F64.fin (-((rndNat z s : Nat) : Int)) := by
  unfold F64.ofExact
  have h1 : (-(z : Int) < 0) := by omega
  simp only [Int.natAbs_neg, Int.natAbs_ofNat, h1, if_true]
  rw [if_neg (by omega)]

/-- An exact value between two representable values rounds to a finite value between them. -/
theorem ofExact_between (lo hi z : Int) (s : Nat)
    (hlo : rndNat lo.natAbs 0 = lo.natAbs) (hhi : rndNat hi.natAbs 0 = hi.natAbs)
    (hlob : lo.natAbs < 2 ^ 2098) (hhib : hi.natAbs < 2 ^ 2098)
    (h1 : lo * 2 ^ s ≤ z) (h2 : z ≤ hi * 2 ^ s) :
    ∃ w, F64.ofExact z s = F64.fin w ∧ lo ≤ w ∧ w ≤ hi := by
  have hp : (0 : Int) < 2 ^ s := by positivity
  rcases lt_or_le z 0 with hz | hz
  · -- negative exact value
    obtain ⟨zn, rfl⟩ : ∃ zn : Nat, z = -(zn : Int) := ⟨z.natAbs, by omega⟩
    have hzn : 0 < zn := by omega
    have hlo0 : lo < 0 := by
      by_contra hn
      have : 0 ≤ lo * 2 ^ s := mul_nonneg (by omega) hp.le
      omega
    obtain ⟨ln, rfl⟩ : ∃ ln : Nat, lo = -(ln : Int) := ⟨lo.natAbs, by omega⟩
    simp only [Int.natAbs_neg, Int.natAbs_ofNat] at hlo hlob
    have hle : zn ≤ ln * 2 ^ s := by
      have : (zn : Int) ≤ (ln : Int) * 2 ^ s := by linarith
      exact_mod_cast this
    have hq := rndNat_le_of_le zn s ln hlo hle
    refine ⟨_, ofExact_neg zn s hzn (by omega), by omega, ?_⟩
    rcases lt_or_le hi 0 with hh | hh
    · obtain ⟨hn, rfl⟩ : ∃ hn : Nat, hi = -(hn : Int) := ⟨hi.natAbs, by omega⟩
      simp only [Int.natAbs_neg, Int.natAbs_ofNat] at hhi
      have hge : hn * 2 ^ s ≤ zn := by
        have : (hn : Int) * 2 ^ s ≤ (zn : Int) := by linarith
        exact_mod_cast this
      have := le_rndNat_of_le zn s hn hhi hge
      omega
    · omega
  · -- non-negative exact value
    obtain ⟨zn, rfl⟩ : ∃ zn : Nat, z = (zn : Int) := ⟨z.natAbs, by omega⟩
    have hhi0 : 0 ≤ hi := by
      by_contra hn
      have : hi * 2 ^ s < 0 := mul_neg_of_neg_of_pos (by omega) hp
      omega
    obtain ⟨hn, rfl⟩ : ∃ hn : Nat, hi = (hn : Int) := ⟨hi.natAbs, by omega⟩
    simp only [Int.natAbs_ofNat] at hhi hhib
    have hle : zn ≤ hn * 2 ^ s := by exact_mod_cast h2
    have hq := rndNat_le_of_le zn s hn hhi hle
    refine ⟨_, ofExact_nonneg zn s (by omega), ?_, by omega⟩
    rcases lt_or_le 0 lo with hl | hl
    · obtain ⟨ln, rfl⟩ : ∃ ln : Nat, lo = (ln : Int) := ⟨lo.natAbs, by omega⟩
      simp only [Int.natAbs_ofNat] at hlo
      have hge : ln * 2 ^ s ≤ zn := by exact_mod_cast h1
      have := le_rndNat_of_le zn s ln hlo hge
      omega
    · omega

/-- The same for a non-negative exact value between two representable magnitudes. -/
theorem ofExact_between_nat (lo hi z s : Nat)
    (hlo : rndNat lo 0 = lo) (hhi : rndNat hi 0 = hi) (hhib : hi < 2 ^ 2098)
    (h1 : lo * 2 ^ s ≤ z) (h2 : z ≤ hi * 2 ^ s) :
    ∃ w : Nat, F64.ofExact (z : Int) s = F64.fin (w : Int) ∧ lo ≤ w ∧ w ≤ hi := by
  have hq := rndNat_le_of_le z s hi hhi h2
  exact ⟨_, ofExact_nonneg z s (by omega), le_rndNat_of_le z s lo hlo h1, hq⟩

/-! ## The float constants of the program -/

theorem ofInt_zero : F64.ofInt 0 = F64.fin 0 := by decide!

theorem ofInt_one : F64.ofInt 1 = F64.fin (2 ^ 1074) := by decide!

theorem ofInt_ten : F64.ofInt 10 = F64.fin (10 * 2 ^ 1074) := by decide!

theorem ofInt_twenty : F64.ofInt 20 = F64.fin (20 * 2 ^ 1074) := by decide!

theorem ofInt_thirty : F64.ofInt 30 = F64.fin (30 * 2 ^ 1074) := by decide!

/-- The decimal constants that occur below, as `float64` values: `0.05` is
`0x1.999999999999ap-5`, `0.37` is `0x1.7ae147ae147aep-2`, `0.35` is `0x1.6666666666666p-2`,
`0.4` is `0x1.999999999999ap-2`, and `0.05` lies within half a unit in the last place of
`1/20`. -/
theorem decimal_constants :
    F64.ofFrac 1 20 = F64.fin (0x1999999999999A * 2 ^ 1017) ∧
    F64.ofFrac 37 100 = F64.fin (0x17AE147AE147AE * 2 ^ 1020) ∧
    F64.ofFrac 35 100 = F64.fin (0x16666666666666 * 2 ^ 1020) ∧
    F64.ofFrac 4 10 = F64.fin (0x1999999999999A * 2 ^ 1020) ∧
    F64.ofFrac 1 2 = F64.fin (2 ^ 1073) ∧
    |20 * (F64.ofFrac 1 20).units - 2 ^ 1074| ≤ 20 * 2 ^ 1016 := by
  decide!

theorem isFloat_nan : F64.isFloat F64.nan = false := rfl

theorem isFloat_inf (b : Bool) : F64.isFloat (F64.inf b) = false := rfl

/-- A draw is a representable number of units below `2^1074`, that is below `1.0`. -/
theorem isUnitDraw_iff (r : F64) :
    F64.isUnitDraw r = true ↔ ∃ n : Nat, r = F64.fin n ∧ rndNat n 0 = n ∧ n < 2 ^ 1074 := by
  unfold F64.isUnitDraw
  rw [ofInt_zero, ofInt_one]
  cases r with
  | nan =>
    refine ⟨fun h => ?_, fun ⟨_, h, _⟩ => by cases h⟩
    rw [isFloat_nan, Bool.false_and, Bool.false_and] at h
    cases h
  | inf b =>
    refine ⟨fun h => ?_, fun ⟨_, h, _⟩ => by cases h⟩
    rw [isFloat_inf, Bool.false_and, Bool.false_and] at h
    cases h
  | fin z =>
    simp only [F64.isFloat, F64.le, F64.lt, Bool.and_eq_true, decide_eq_true_eq]
    constructor
    · rintro ⟨⟨⟨h1, _⟩, h3⟩, h4⟩
      refine ⟨z.natAbs, by congr 1; omega, h1, ?_⟩
      have : ((z.natAbs : Nat) : Int) < 2 ^ 1074 := by omega
      exact_mod_cast this
    · rintro ⟨n, hn, h1, h2⟩
      injection hn with hn
      subst hn
      simp only [Int.natAbs_ofNat]
      have h5 : (2 : Nat) ^ 1074 < 2 ^ 2098 := by decide!
      refine ⟨⟨⟨h1, by omega⟩, by omega⟩, ?_⟩
      exact_mod_cast h2

/-- On the range `(0, 1)` the function `randomFloat` returns the draw itself. -/
theorem randomFloat_zero_one (fused : Bool) (r : F64) (h : F64.isUnitDraw r = true) :
    randomFloat fused (F64.ofInt 0) (F64.ofInt 1) r = r := by
  obtain ⟨n, rfl, hrep, hlt⟩ := (isUnitDraw_iff _).1 h
  have hsub : F64.sub (F64.ofInt 1) (F64.ofInt 0) = F64.fin (2 ^ 1074) := by decide!
  have hb : n < 2 ^ 2098 := lt_trans hlt (by decide!)
  unfold randomFloat
  rw [hsub, ofInt_zero]
  have key : ∀ z : Nat, z = n * 2 ^ 1074 → F64.ofExact (z : Int) 1074 = F64.fin n := by
    intro z hz
    obtain ⟨w, hw, h1, h2⟩ := ofExact_between_nat n n z 1074 hrep hrep hb (by omega) (by omega)
    have hwn : w = n := by omega
    rw [hw, hwn]
  have key0 : F64.ofExact ((n : Nat) : Int) 0 = F64.fin n := by
    obtain ⟨w, hw, h1, h2⟩ := ofExact_between_nat n n n 0 hrep hrep hb (by simp) (by simp)
    have hwn : w = n := by omega
    rw [hw, hwn]
  cases fused with
  | true =>
    have h1 : (n : Int) * 2 ^ 1074 + 0 * 2 ^ 1074 = ((n * 2 ^ 1074 : Nat) : Int) := by
      rw [zero_mul, add_zero, Nat.cast_mul, Nat.cast_pow, Nat.cast_ofNat]
    rw [mulAdd_fused, h1]
    exact key _ rfl
  | false =>
    have h1 : (n : Int) * 2 ^ 1074 = ((n * 2 ^ 1074 : Nat) : Int) := by
      rw [Nat.cast_mul, Nat.cast_pow, Nat.cast_ofNat]
    have h2 : (n : Int) + 0 = ((n : Nat) : Int) := by omega
    rw [mulAdd_unfused, mul_fin, h1, key _ rfl, add_fin, h2]
    exact key0

theorem le_fin (x y : Int) : F64.le (F64.fin x) (F64.fin y) = decide (x ≤ y) := by
  rw [F64.le]

theorem lt_fin (x y : Int) : F64.lt (F64.fin x) (F64.fin y) = decide (x < y) := by
  rw [F64.lt]

/-- The value `20 + r*10` for a draw `r`, in units: it is finite and lies between `20.0` and
`30.0`, whichever way the sum is evaluated. -/
theorem temperature_units (fused : Bool) (n : Nat) (hlt : n < 2 ^ 1074) :
    ∃ w : Nat, F64.mulAdd fused (F64.fin n) (F64.fin (10 * 2 ^ 1074)) (F64.fin (20 * 2 ^ 1074))
        = F64.fin w ∧ 20 * 2 ^ 1074 ≤ w ∧ w ≤ 30 * 2 ^ 1074 := by
  have h10 : rndNat (10 * 2 ^ 1074) 0 = 10 * 2 ^ 1074 := rep_of_lt 10 1074 (by norm_num)
  have h20 : rndNat (20 * 2 ^ 1074) 0 = 20 * 2 ^ 1074 := rep_of_lt 20 1074 (by norm_num)
  have h30 : rndNat (30 * 2 ^ 1074) 0 = 30 * 2 ^ 1074 := rep_of_lt 30 1074 (by norm_num)
  have h0 : rndNat 0 0 = 0 := by decide
  have hb10 : 10 * 2 ^ 1074 < 2 ^ 2098 := by decide!
  have hb30 : 30 * 2 ^ 1074 < 2 ^ 2098 := by decide!
  generalize hU : (2 : Nat) ^ 1074 = U at *
  have hUi : (2 : Int) ^ 1074 = (U : Int) := by
    rw [← hU, Nat.cast_pow, Nat.cast_ofNat]
  have hnU : n * (10 * U) ≤ 10 * U * U := by
    calc n * (10 * U) ≤ U * (10 * U) := Nat.mul_le_mul_right _ hlt.le
      _ = 10 * U * U := by ring
  cases fused with
  | true =>
    rw [mulAdd_fused, hUi]
    have hz : (n : Int) * (10 * (U : Int)) + 20 * (U : Int) * (U : Int)
        = ((n * (10 * U) + 20 * U * U : Nat) : Int) := by push_cast; ring
    rw [hz]
    obtain ⟨w, hw, h1, h2⟩ := ofExact_between_nat (20 * U) (30 * U) (n * (10 * U) + 20 * U * U)
      1074 h20 h30 hb30 (by rw [hU]; omega) (by rw [hU]; linarith)
    exact ⟨w, hw, h1, h2⟩
  | false =>
    rw [mulAdd_unfused, mul_fin, hUi]
    have hz : (n : Int) * (10 * (U : Int)) = ((n * (10 * U) : Nat) : Int) := by push_cast; ring
    rw [hz]
    obtain ⟨p, hp, _, hp2⟩ := ofExact_between_nat 0 (10 * U) (n * (10 * U)) 1074 h0 h10 hb10
      (by omega) (by rw [hU]; linarith)
    rw [hp, add_fin]
    have hz2 : (p : Int) + 20 * (U : Int) = ((p + 20 * U : Nat) : Int) := by push_cast; ring
    rw [hz2]
    obtain ⟨w, hw, h1, h2⟩ := ofExact_between_nat (20 * U) (30 * U) (p + 20 * U) 0 h20 h30 hb30
      (by omega) (by omega)
    exact ⟨w, hw, h1, h2⟩

/-! ## Rounding: the neighbours of a value -/

/-- The largest representable magnitude below `1.0` is `1 - 2^-53`. -/
theorem draw_le_top (n : Nat) (hrep : rndNat n 0 = n) (hlt : n < 2 ^ 1074) :
    n + 2 ^ 1021 ≤ 2 ^ 1074 := by
  rcases Nat.lt_or_ge n (2 ^ (52 + 1021)) with h | h
  · have : (2 : Nat) ^ (52 + 1021) + 2 ^ 1021 ≤ 2 ^ 1074 := by decide!
    omega
  · obtain ⟨k, hk⟩ := rep_dvd n 1021 hrep h
    have h2 : (2 : Nat) ^ 1074 = 2 ^ 1021 * 2 ^ 53 := by rw [← pow_add]
    rw [hk, h2] at hlt
    have hk2 : k < 2 ^ 53 := Nat.lt_of_mul_lt_mul_left hlt
    rw [hk, h2]
    calc 2 ^ 1021 * k + 2 ^ 1021 = 2 ^ 1021 * (k + 1) := by ring
      _ ≤ 2 ^ 1021 * 2 ^ 53 := Nat.mul_le_mul_left _ hk2

/-- When rounding moves a magnitude up, the result is the upper one of two neighbours
`m * 2^(k+1)` and `(m+1) * 2^(k+1)` with a 53 bit `m`, and the magnitude is at least half way
between them. -/
theorem round_up_structure (D : Nat) (h : D < rndNat D 0) :
    ∃ m k, 2 ^ 52 ≤ m ∧ m < 2 ^ 53 ∧ rndNat D 0 = (m + 1) * 2 ^ (k + 1) ∧
      m * 2 ^ (k + 1) + 2 ^ k ≤ D := by
  rw [rndNat_eq] at h ⊢
  simp only [Nat.zero_max, Nat.sub_zero] at h ⊢
  rcases Nat.eq_zero_or_pos (bitLen D - 53) with ht | ht
  · rw [ht, roundNE_of_dvd D 0 (by simp)] at h
    simp at h
  · obtain ⟨k, hk⟩ : ∃ k, bitLen D - 53 = k + 1 := ⟨bitLen D - 53 - 1, by omega⟩
    rw [hk] at h ⊢
    have hp : 0 < 2 ^ (k + 1) := Nat.two_pow_pos _
    have hlo : 2 ^ (52 + (k + 1)) ≤ D := (lt_bitLen_iff D _).1 (by omega)
    have hhi : D < 2 ^ (53 + (k + 1)) := (bitLen_le_iff D _).1 (by omega)
    have hm1 : 2 ^ 52 ≤ D / 2 ^ (k + 1) := by
      rw [Nat.le_div_iff_mul_le hp, ← pow_add]
      exact hlo
    have hm2 : D / 2 ^ (k + 1) < 2 ^ 53 := by
      rw [Nat.div_lt_iff_lt_mul hp, ← pow_add]
      exact hhi
    have hdm := Nat.div_add_mod D (2 ^ (k + 1))
    have hmul := Nat.div_mul_le_self D (2 ^ (k + 1))
    have h2k : 2 ^ (k + 1) = 2 * 2 ^ k := by rw [pow_succ]; ring
    refine ⟨D / 2 ^ (k + 1), k, hm1, hm2, ?_, ?_⟩
    · have hr : roundNE D (k + 1) = D / 2 ^ (k + 1) + 1 := by
        have h1 := roundNE_le D (k + 1)
        have h3 := roundNE_ge D (k + 1)
        rcases Nat.lt_or_ge (roundNE D (k + 1)) (D / 2 ^ (k + 1) + 1) with hlt | hge
        · have : roundNE D (k + 1) = D / 2 ^ (k + 1) := by omega
          rw [this] at h
          omega
        · omega
      rw [hr]
    · by_contra hn
      have hlt : 2 * (D % 2 ^ (k + 1)) < 2 ^ (k + 1) := by
        have : D / 2 ^ (k + 1) * 2 ^ (k + 1) + D % 2 ^ (k + 1) = D := by
          rw [Nat.mul_comm]; exact hdm
        omega
      have hr : roundNE D (k + 1) = D / 2 ^ (k + 1) := by
        unfold roundNE
        simp only [hlt, if_true]
      rw [hr] at h
      omega

/-- A value below the middle of two neighbours rounds to the lower one or below. -/
theorem rndNat_le_of_lt_mid (m k s x : Nat) (hm1 : 2 ^ 52 ≤ m) (hm2 : m < 2 ^ 53)
    (hx : x < (m * 2 ^ (k + 1) + 2 ^ k) * 2 ^ s) : rndNat x s ≤ m * 2 ^ (k + 1) := by
  rcases Nat.lt_or_ge (m * 2 ^ (k + 1) * 2 ^ s) x with hgt | hle
  · have e1 : m * 2 ^ (k + 1) * 2 ^ s = m * 2 ^ (k + 1 + s) := by rw [pow_add]; ring
    have e2 : (m * 2 ^ (k + 1) + 2 ^ k) * 2 ^ s = m * 2 ^ (k + 1 + s) + 2 ^ (k + s) := by
      rw [pow_add, pow_add]; ring
    rw [e1] at hgt
    rw [e2] at hx
    have e3 : 2 ^ (k + 1 + s) = 2 * 2 ^ (k + s) := by
      rw [show k + 1 + s = (k + s) + 1 by omega, pow_succ]; ring
    have hp : 0 < 2 ^ (k + 1 + s) := Nat.two_pow_pos _
    have hlo : 2 ^ (52 + (k + 1 + s)) ≤ x := by
      rw [pow_add]
      calc 2 ^ 52 * 2 ^ (k + 1 + s) ≤ m * 2 ^ (k + 1 + s) := Nat.mul_le_mul_right _ hm1
        _ ≤ x := hgt.le
    have hhi : x < 2 ^ (53 + (k + 1 + s)) := by
      rw [pow_add]
      calc x < m * 2 ^ (k + 1 + s) + 2 ^ (k + s) := hx
        _ ≤ m * 2 ^ (k + 1 + s) + 2 ^ (k + 1 + s) := by omega
        _ = (m + 1) * 2 ^ (k + 1 + s) := by ring
        _ ≤ 2 ^ 53 * 2 ^ (k + 1 + s) := Nat.mul_le_mul_right _ hm2
    have hb1 : 52 + (k + 1 + s) < bitLen x := (lt_bitLen_iff x _).2 hlo
    have hb2 : bitLen x ≤ 53 + (k + 1 + s) := (bitLen_le_iff x _).2 hhi
    have hT : max s (bitLen x - 53) = k + 1 + s := by omega
    rw [rndNat_eq, hT]
    have hdiv : x / 2 ^ (k + 1 + s) = m := by
      apply Nat.div_eq_of_lt_le
      · rw [Nat.mul_comm] at hgt
        rw [Nat.mul_comm]
        exact hgt.le
      · calc x < m * 2 ^ (k + 1 + s) + 2 ^ (k + s) := hx
          _ ≤ (m + 1) * 2 ^ (k + 1 + s) := by rw [Nat.add_mul]; omega
    have hmod : 2 * (x % 2 ^ (k + 1 + s)) < 2 ^ (k + 1 + s) := by
      have hdm := Nat.div_add_mod x (2 ^ (k + 1 + s))
      rw [hdiv, Nat.mul_comm] at hdm
      omega
    have hr : roundNE x (k + 1 + s) = m := by
      unfold roundNE
      simp only [hmod, if_true, hdiv]
    rw [hr, Nat.add_sub_cancel]
  · exact rndNat_le_of_le x s (m * 2 ^ (k + 1)) (rep_of_lt m (k + 1) hm2) hle

/-- The exact product of a draw and a rounded difference does not exceed the difference. -/
theorem draw_mul_le (D n : Nat) (hn : n + 2 ^ 1021 ≤ 2 ^ 1074) :
    n * rndNat D 0 ≤ D * 2 ^ 1074 := by
  rcases Nat.lt_or_ge D (rndNat D 0) with hup | hdown
  · obtain ⟨m, k, hm1, _, hd, hD⟩ := round_up_structure D hup
    rw [hd]
    have hA : (2 : Nat) ^ 1074 = 2 ^ 1021 * 2 ^ 53 := by rw [← pow_add]
    have hA2 : (2 : Nat) ^ 53 ≤ 2 * m + 2 := by
      have : (2 : Nat) ^ 53 = 2 * 2 ^ 52 := by norm_num
      omega
    have hK : 2 ^ (k + 1) = 2 * 2 ^ k := by rw [pow_succ]; ring
    rw [hA] at hn ⊢
    rw [hK] at hD ⊢
    generalize (2 : Nat) ^ 1021 = E at *
    generalize (2 : Nat) ^ 53 = A at *
    generalize (2 : Nat) ^ k = K at *
    have h1 : (n + E) * ((m + 1) * (2 * K)) ≤ E * A * ((m + 1) * (2 * K)) :=
      Nat.mul_le_mul_right _ hn
    have h2 : (m * (2 * K) + K) * (E * A) ≤ D * (E * A) := Nat.mul_le_mul_right _ hD
    have h3 : E * K * A ≤ E * K * (2 * m + 2) := Nat.mul_le_mul_left _ hA2
    nlinarith [h1, h2, h3]
  · calc n * rndNat D 0 ≤ 2 ^ 1074 * D := Nat.mul_le_mul (by omega) hdown
      _ = D * 2 ^ 1074 := Nat.mul_comm _ _

/-- The rounded product of a draw and a rounded difference does not exceed the difference. -/
theorem round_draw_mul_le (D n : Nat) (hn : n + 2 ^ 1021 ≤ 2 ^ 1074)
    (hrep : rndNat (rndNat D 0) 0 = rndNat D 0) :
    rndNat (n * rndNat D 0) 1074 ≤ D := by
  rcases Nat.lt_or_ge D (rndNat D 0) with hup | hdown
  · obtain ⟨m, k, hm1, hm2, hd, hD⟩ := round_up_structure D hup
    have hmid : n * rndNat D 0 < (m * 2 ^ (k + 1) + 2 ^ k) * 2 ^ 1074 := by
      rw [hd]
      have hA : (2 : Nat) ^ 1074 = 2 ^ 1021 * 2 ^ 53 := by rw [← pow_add]
      have hA2 : (2 : Nat) ^ 53 < 2 * m + 2 := by
        have : (2 : Nat) ^ 53 = 2 * 2 ^ 52 := by norm_num
        omega
      have hK : 2 ^ (k + 1) = 2 * 2 ^ k := by rw [pow_succ]; ring
      have hE0 : 0 < (2 : Nat) ^ 1021 := pow_pos (by norm_num) 1021
      have hK0 : 0 < (2 : Nat) ^ k := Nat.two_pow_pos _
      rw [hA] at hn ⊢
      rw [hK]
      generalize (2 : Nat) ^ 1021 = E at *
      generalize (2 : Nat) ^ 53 = A at *
      generalize (2 : Nat) ^ k = K at *
      have h1 : (n + E) * ((m + 1) * (2 * K)) ≤ E * A * ((m + 1) * (2 * K)) :=
        Nat.mul_le_mul_right _ hn
      have hEK : 0 < E * K := Nat.mul_pos hE0 hK0
      have h3 : E * K * A < E * K * (2 * m + 2) := Nat.mul_lt_mul_of_pos_left hA2 hEK
      nlinarith [h1, h3]
    exact le_trans (rndNat_le_of_lt_mid m k 1074 _ hm1 hm2 hmid) (le_trans (Nat.le_add_right _ _) hD)
  · have h1 : n * rndNat D 0 ≤ rndNat D 0 * 2 ^ 1074 := by
      rw [Nat.mul_comm]
      exact Nat.mul_le_mul_left _ (by omega)
    exact le_trans (rndNat_le_of_le _ 1074 _ hrep h1) hdown

theorem isFloat_iff (x : F64) :
    F64.isFloat x = true ↔
      ∃ z : Int, x = F64.fin z ∧ rndNat z.natAbs 0 = z.natAbs ∧ z.natAbs < 2 ^ 2098 := by
  cases x with
  | nan =>
    refine ⟨fun h => ?_, fun ⟨_, h, _⟩ => by cases h⟩
    rw [isFloat_nan] at h
    cases h
  | inf b =>
    refine ⟨fun h => ?_, fun ⟨_, h, _⟩ => by cases h⟩
    rw [isFloat_inf] at h
    cases h
  | fin z =>
    rw [F64.isFloat, Bool.and_eq_true, decide_eq_true_eq, decide_eq_true_eq]
    constructor
    · intro h
      exact ⟨z, rfl, h.1, h.2⟩
    · rintro ⟨w, hw, h1, h2⟩
      injection hw with hw
      subst hw
      exact ⟨h1, h2⟩

theorem ofExact_overflow (z s : Nat) (h : 2 ^ 2098 ≤ rndNat z s) :
    F64.ofExact (z : Int) s = F64.inf false := by
  unfold F64.ofExact
  have h1 : ¬ ((z : Int) < 0) := by omega
  simp only [Int.natAbs_ofNat]
  rw [if_pos h, decide_eq_false h1]

/-- The result of `randomFloat` lies between `min` and `max`, both included, whenever
`max - min` is a finite `float64`. -/
theorem randomFloat_between (fused : Bool) (min max r : F64)
    (hmin : F64.isFloat min = true) (hmax : F64.isFloat max = true)
    (hlt : F64.lt min max = true) (hd : F64.isFloat (F64.sub max min) = true)
    (hr : F64.isUnitDraw r = true) :
    F64.le min (randomFloat fused min max r) = true ∧
    F64.le (randomFloat fused min max r) max = true := by
  obtain ⟨a, rfl, ha1, ha2⟩ := (isFloat_iff min).1 hmin
  obtain ⟨b, rfl, hb1, hb2⟩ := (isFloat_iff max).1 hmax
  obtain ⟨n, rfl, hn1, hn2⟩ := (isUnitDraw_iff r).1 hr
  rw [lt_fin, decide_eq_true_eq] at hlt
  obtain ⟨D, hD⟩ : ∃ D : Nat, b + -a = (D : Int) := ⟨(b - a).toNat, by omega⟩
  have hsub : F64.sub (F64.fin b) (F64.fin a) = F64.ofExact (D : Int) 0 := by
    rw [sub_fin, hD]
  have hfin : rndNat D 0 < 2 ^ 2098 := by
    by_contra hov
    rw [hsub, ofExact_overflow D 0 (by omega), isFloat_inf] at hd
    cases hd
  have hsub2 : F64.sub (F64.fin b) (F64.fin a) = F64.fin ((rndNat D 0 : Nat) : Int) := by
    rw [hsub, ofExact_nonneg D 0 hfin]
  rw [hsub2] at hd
  obtain ⟨z, hz, hz1, _⟩ := (isFloat_iff _).1 hd
  injection hz with hz
  rw [← hz, Int.natAbs_ofNat] at hz1
  have htop := draw_le_top n hn1 hn2
  have key : ∃ w : Int, randomFloat fused (F64.fin a) (F64.fin b) (F64.fin n) = F64.fin w ∧
      a ≤ w ∧ w ≤ b := by
    unfold randomFloat
    rw [hsub2]
    cases fused with
    | true =>
      rw [mulAdd_fused]
      have h1 := draw_mul_le D n htop
      have h1i : (n : Int) * ((rndNat D 0 : Nat) : Int) ≤ (D : Int) * 2 ^ 1074 := by
        exact_mod_cast h1
      have h0 : (0 : Int) ≤ (n : Int) * ((rndNat D 0 : Nat) : Int) :=
        mul_nonneg (Int.natCast_nonneg _) (Int.natCast_nonneg _)
      have hDb : (D : Int) = b - a := by omega
      apply ofExact_between a b _ 1074 ha1 hb1 ha2 hb2
      · linarith
      · rw [hDb] at h1i
        linarith
    | false =>
      rw [mulAdd_unfused, mul_fin]
      have hc : (n : Int) * ((rndNat D 0 : Nat) : Int) = ((n * rndNat D 0 : Nat) : Int) := by
        rw [Nat.cast_mul]
      rw [hc]
      have hle : n * rndNat D 0 ≤ rndNat D 0 * 2 ^ 1074 := by
        rw [Nat.mul_comm]
        exact Nat.mul_le_mul_left _ hn2.le
      have hp1 := rndNat_le_of_le _ 1074 _ hz1 hle
      have hp2 := round_draw_mul_le D n htop hz1
      rw [ofExact_nonneg _ 1074 (by omega), add_fin]
      apply ofExact_between a b _ 0 ha1 hb1 ha2 hb2
      · omega
      · omega
  obtain ⟨w, hw, h1, h2⟩ := key
  rw [hw, le_fin, le_fin, decide_eq_true_eq, decide_eq_true_eq]
  exact ⟨h1, h2⟩

/-! ## The loop: helper lemmas -/

theorem tickAct_trace (fused : Bool) (s : LoopState) (d : Draws) (req : String) :
    (tickAct fused s d req).trace =
      [⟨s.clock, Gor.loop, Event.counterAdd req 1⟩,
       ⟨s.clock, Gor.loop, Event.observe (Itoa s.i) (latencyOf fused d)⟩,
       ⟨s.clock, Gor.loop, Event.log Level.info "in progress ..."
          [Field.int "iteration" s.i, Field.float64 "latency" (latencyOf fused d)]⟩,
       ⟨s.clock, Gor.loop, Event.gaugeSet (temperatureOf fused d)⟩,
       ⟨s.clock, Gor.loop, Event.spanStart (rootSpan s.pass) (some mainSpan)⟩,
       ⟨s.clock, Gor.loop, Event.goStmt (Gor.worker s.pass "work1")⟩,
       ⟨s.clock, Gor.loop, Event.goStmt (Gor.worker s.pass "work2")⟩,
       ⟨s.clock, Gor.loop, Event.sleep 1⟩,
       ⟨s.clock + 1, Gor.loop, Event.spanEnd (rootSpan s.pass)⟩,
       ⟨s.clock + 1, Gor.loop, Event.sleep 2⟩] := by
  simp [tickAct, Act.run, Act.call, Act.ret, Act.step, Act.start, metricOps, doRequest, sleepOps]

theorem tickAct_clock (fused : Bool) (s : LoopState) (d : Draws) (req : String) :
    (tickAct fused s d req).clock = s.clock + 3 := by
  simp [tickAct, Act.run, Act.call, Act.ret, Act.step, Act.start, metricOps, doRequest, sleepOps]

theorem endpoints_get (k : Nat) (h : k < endpoints.length) :
    ∃ req, endpoints[k]? = some req ∧ req ∈ ["/foo", "/bar", "/baz"] := by
  have h3 : k < 3 := h
  interval_cases k <;> simp [endpoints]

theorem tick_some (fused : Bool) (d : Draws) (s : LoopState) (req : String)
    (h : endpoints[d.idx]? = some req) :
    tick fused d s = some
      { i := wrapInt (s.i + 1)
        pass := s.pass + 1
        clock := s.clock + 3
        reg := (tickAct fused s d req).trace.foldl (fun r e => r.apply e.ev) s.reg
        trace := s.trace ++ (tickAct fused s d req).trace } := by
  simp [tick, h, tickAct_clock]

theorem tick_requests (fused : Bool) (s : LoopState) (d : Draws) (req l : String) :
    ((tickAct fused s d req).trace.foldl (fun r e => r.apply e.ev) s.reg).requests l
      = s.reg.requests l + (if l = req then 1 else 0) := by
  rw [tickAct_trace]
  simp [Registry.apply]
  split <;> rfl

theorem tick_temperature (fused : Bool) (s : LoopState) (d : Draws) (req : String) :
    ((tickAct fused s d req).trace.foldl (fun r e => r.apply e.ev) s.reg).temperature
      = temperatureOf fused d := by
  rw [tickAct_trace]
  simp [Registry.apply]

theorem tick_histogram (fused : Bool) (s : LoopState) (d : Draws) (req l : String) :
    ((tickAct fused s d req).trace.foldl (fun r e => r.apply e.ev) s.reg).requestDuration l
      = if l = Itoa s.i then (s.reg.requestDuration l).observe (latencyOf fused d)
        else s.reg.requestDuration l := by
  rw [tickAct_trace]
  simp [Registry.apply]

theorem tickAct_observations (fused : Bool) (s : LoopState) (d : Draws) (req : String) :
    observations (tickAct fused s d req).trace = [(Itoa s.i, latencyOf fused d)] := by
  rw [tickAct_trace]
  simp [observations]

theorem wrapInt_succ (z : Int) : wrapInt (wrapInt z + 1) = wrapInt (z + 1) := by
  unfold wrapInt
  norm_num
  omega

theorem wrapInt_idem (z : Int) : wrapInt (wrapInt z) = wrapInt z := by
  unfold wrapInt
  omega

theorem wrapInt_small (z : Int) (h0 : 0 ≤ z) (h1 : z < 2 ^ 63) : wrapInt z = z := by
  unfold wrapInt
  norm_num at h1 ⊢
  omega

theorem chosen_cons (l : String) (d : Draws) (ds : List Draws) :
    chosen l (d :: ds) = (if endpoints[d.idx]? = some l then 1 else 0) + chosen l ds := by
  unfold chosen
  rw [List.countP_cons]
  by_cases h : endpoints[d.idx]? = some l <;> simp [h, Nat.add_comm]

/-- The state after the passes `ds`, started from any state. -/
theorem runLoop_spec (fused : Bool) (ds : List Draws) :
    ∀ s0 : LoopState, (∀ d ∈ ds, d.idx < endpoints.length) →
      ∃ s, runLoop fused ds s0 = some s ∧ s.pass = s0.pass + ds.length ∧
        s.clock = s0.clock + 3 * ds.length ∧
        wrapInt s.i = wrapInt (s0.i + ds.length) ∧
        (ds ≠ [] → wrapInt s.i = s.i) ∧
        (∀ l, s.reg.requests l = s0.reg.requests l + chosen l ds) ∧
        (∀ e ∈ s.trace, e ∈ s0.trace ∨ (s0.clock ≤ e.time ∧ e.time < s.clock)) := by
  induction ds with
  | nil =>
    intro s0 _
    exact ⟨s0, rfl, by simp, by simp, by simp, by simp, by simp [chosen], fun e he => Or.inl he⟩
  | cons d ds ih =>
    intro s0 h
    obtain ⟨req, hreq, _⟩ := endpoints_get d.idx (h d (List.mem_cons_self _ _))
    obtain ⟨s, hs, hp, hc, hi, hw, hr, ht⟩ :=
      ih
        { i := wrapInt (s0.i + 1)
          pass := s0.pass + 1
          clock := s0.clock + 3
          reg := (tickAct fused s0 d req).trace.foldl (fun r e => r.apply e.ev) s0.reg
          trace := s0.trace ++ (tickAct fused s0 d req).trace }
        (fun x hx => h x (List.mem_cons_of_mem _ hx))
    refine ⟨s, ?_, ?_, ?_, ?_, ?_, ?_, ?_⟩
    · simp [runLoop, tick_some fused d s0 req hreq, hs]
    · simp at hp ⊢; omega
    · simp at hc ⊢; omega
    · rw [hi]
      simp only [List.length_cons]
      have := wrapInt_succ (s0.i)
      unfold wrapInt at this ⊢
      push_cast
      norm_num at this ⊢
      omega
    · intro _
      by_cases hds : ds = []
      · subst hds
        simp [runLoop] at hs
        subst hs
        exact wrapInt_idem _
      · exact hw hds
    · intro l
      rw [hr l, tick_requests, chosen_cons]
      simp only [hreq, Option.some.injEq]
      by_cases hl : l = req
      · subst hl; simp; omega
      · have : ¬ req = l := fun h => hl h.symm
        simp [hl, this]
    · intro e he
      rcases ht e he with h1 | ⟨h1, h2⟩
      · simp only [List.mem_append] at h1
        rcases h1 with h1 | h1
        · exact Or.inl h1
        · right
          rw [tickAct_trace] at h1
          simp at h1
          simp only [List.length_cons] at hc
          rcases h1 with h1 | h1 | h1 | h1 | h1 | h1 | h1 | h1 | h1 | h1 <;> subst h1 <;> simp <;> omega
      · right
        simp at h1
        exact ⟨by omega, h2⟩

theorem runLoop_append (fused : Bool) (ds : List Draws) (d : Draws) :
    ∀ s0 : LoopState, runLoop fused (ds ++ [d]) s0 = (runLoop fused ds s0).bind (tick fused d) := by
  induction ds with
  | nil =>
    intro s0
    simp only [List.nil_append, runLoop, Option.some_bind]
    cases tick fused d s0 <;> simp [runLoop]
  | cons x xs ih =>
    intro s0
    simp only [List.cons_append, runLoop]
    cases hx : tick fused x s0 with
    | none => simp
    | some s1 => simpa using ih s1

theorem chosen_total (ds : List Draws) (h : ∀ d ∈ ds, d.idx < endpoints.length) :
    chosen "/foo" ds + chosen "/bar" ds + chosen "/baz" ds = ds.length := by
  induction ds with
  | nil => simp [chosen]
  | cons d ds ih =>
    have hd : d.idx < 3 := h d (List.mem_cons_self _ _)
    have := ih (fun x hx => h x (List.mem_cons_of_mem _ hx))
    rw [chosen_cons, chosen_cons, chosen_cons, List.length_cons]
    interval_cases hk : d.idx <;> simp [endpoints] <;> omega

theorem runLoop_init (fused : Bool) (t0 : Nat) (ds : List Draws)
    (h : ∀ d ∈ ds, d.idx < endpoints.length) :
    ∃ s, runLoop fused ds (LoopState.init t0) = some s ∧ s.pass = ds.length ∧
      s.clock = t0 + 3 * ds.length ∧ s.i = wrapInt ds.length ∧
      (∀ l, s.reg.requests l = chosen l ds) ∧ (∀ e ∈ s.trace, e.time < s.clock) := by
  obtain ⟨s, hs, hp, hc, hi, hw, hr, ht⟩ := runLoop_spec fused ds (LoopState.init t0) h
  refine ⟨s, hs, by simpa [LoopState.init] using hp, by simpa [LoopState.init] using hc, ?_, ?_, ?_⟩
  · by_cases hds : ds = []
    · subst hds
      simp [runLoop] at hs
      subst hs
      simp [LoopState.init, wrapInt]
    · rw [← hw hds, hi]
      simp [LoopState.init]
  · intro l
    simpa [LoopState.init, Registry.init] using hr l
  · intro e he
    rcases ht e he with h1 | h1
    · simp [LoopState.init] at h1
    · exact h1.2

/-! ## Claims about the loop -/

/-- C2. After the passes given by any sequence of draws (indices as `rand.Intn(3)` returns
them), the request counter of every label equals the number of those passes in which the label
was chosen, and the counters of the three endpoint labels add up to the number of passes. -/
theorem request_counters_count_chosen_passes (fused : Bool) (t0 : Nat) (ds : List Draws)
    (h : ∀ d ∈ ds, d.idx < endpoints.length) :
    ∃ s, runLoop fused ds (LoopState.init t0) = some s ∧
      (∀ l, s.reg.requests l = chosen l ds) ∧
      s.reg.requests "/foo" + s.reg.requests "/bar" + s.reg.requests "/baz" = ds.length := by
  obtain ⟨s, hs, _, _, _, hr, _⟩ := runLoop_init fused t0 ds h
  refine ⟨s, hs, hr, ?_⟩
  rw [hr, hr, hr]
  exact chosen_total ds h

/-- Witness for C2: the three sample passes. -/
theorem request_counters_count_chosen_passes_witness :
    (∀ d ∈ sampleDraws, d.idx < endpoints.length) ∧
    ∃ s, runLoop false sampleDraws (LoopState.init 0) = some s ∧
      (∀ l, s.reg.requests l = chosen l sampleDraws) ∧
      s.reg.requests "/foo" + s.reg.requests "/bar" + s.reg.requests "/baz"
        = sampleDraws.length :=
  ⟨by decide, request_counters_count_chosen_passes false 0 sampleDraws (by decide)⟩

/-- C6. For every index that `rand.Intn(len(endpoints))` can return, the slice access succeeds,
the label handed to the counter is one of "/foo", "/bar", "/baz", the pass completes, it
adds exactly 1 to the counter of that label and leaves every other counter as it was; no
counter decreases. -/
theorem endpoint_label_in_fixed_set (fused : Bool) (d : Draws) (s : LoopState)
    (h : d.idx < endpoints.length) :
    ∃ req s', endpoints[d.idx]? = some req ∧ req ∈ ["/foo", "/bar", "/baz"] ∧
      tick fused d s = some s' ∧
      counterAdds (tickAct fused s d req).trace = [(req, 1)] ∧
      (∀ l, s'.reg.requests l = s.reg.requests l + (if l = req then 1 else 0)) ∧
      (∀ l, s.reg.requests l ≤ s'.reg.requests l) := by
  obtain ⟨req, hreq, hmem⟩ := endpoints_get d.idx h
  refine ⟨req, _, hreq, hmem, tick_some fused d s req hreq, ?_, ?_, ?_⟩
  · rw [tickAct_trace]
    simp [counterAdds]
  · intro l
    dsimp only
    rw [tick_requests]
  · intro l
    dsimp only
    rw [tick_requests]
    omega

/-- Witness for C6: the sample pass from the initial state. -/
theorem endpoint_label_in_fixed_set_witness :
    sampleDraw.idx < endpoints.length ∧
    ∃ req s', endpoints[sampleDraw.idx]? = some req ∧ req ∈ ["/foo", "/bar", "/baz"] ∧
      tick false sampleDraw (LoopState.init 0) = some s' ∧
      counterAdds (tickAct false (LoopState.init 0) sampleDraw req).trace = [(req, 1)] ∧
      (∀ l, s'.reg.requests l
        = (LoopState.init 0).reg.requests l + (if l = req then 1 else 0)) ∧
      (∀ l, (LoopState.init 0).reg.requests l ≤ s'.reg.requests l) :=
  ⟨by decide, endpoint_label_in_fixed_set false sampleDraw (LoopState.init 0) (by decide)⟩

/-- C7. In every pass the histogram observation and the log record carry the same values:
there is exactly one observation, under the label `strconv.Itoa(i)`, and exactly one log
record, at level info with message "in progress ...", whose field `iteration` is that same
`i` and whose field `latency` is the very value that was observed; the root span of the same
pass is started once in it. -/
theorem tick_signals_carry_same_values (fused : Bool) (s : LoopState) (d : Draws)
    (req : String) :
    observations (tickAct fused s d req).trace = [(Itoa s.i, latencyOf fused d)] ∧
    logRecords (tickAct fused s d req).trace =
      [(Level.info, "in progress ...",
        [Field.int "iteration" s.i, Field.float64 "latency" (latencyOf fused d)])] ∧
    startCount (rootSpan s.pass) (tickAct fused s d req).trace = 1 := by
  rw [tickAct_trace]
  simp [observations, logRecords, startCount, rootSpan]

/-- C9. A call of `doRequest` at time `t` starts the root span, launches the two goroutines,
sleeps one second and returns at `t + 1`, ending the root span then; it waits for neither
child.  Each child starts its span at `t` and ends it, exactly once, at `t + 2`, which is
after the root span has ended. -/
theorem doRequest_returns_before_children_end (p t : Nat) :
    (Act.call Gor.loop (Act.start t) (doRequest p)).trace =
      [⟨t, Gor.loop, Event.spanStart (rootSpan p) (some mainSpan)⟩,
       ⟨t, Gor.loop, Event.goStmt (Gor.worker p "work1")⟩,
       ⟨t, Gor.loop, Event.goStmt (Gor.worker p "work2")⟩,
       ⟨t, Gor.loop, Event.sleep 1⟩,
       ⟨t + 1, Gor.loop, Event.spanEnd (rootSpan p)⟩] ∧
    (Act.call Gor.loop (Act.start t) (doRequest p)).status = Status.running ∧
    (Act.call Gor.loop (Act.start t) (doRequest p)).clock = t + 1 ∧
    workersTrace (Act.call Gor.loop (Act.start t) (doRequest p)).trace =
      [⟨t, Gor.worker p "work1", Event.spanStart ⟨"work1", some p⟩ (some (rootSpan p))⟩,
       ⟨t, Gor.worker p "work1", Event.sleep 2⟩,
       ⟨t + 2, Gor.worker p "work1", Event.spanEnd ⟨"work1", some p⟩⟩,
       ⟨t, Gor.worker p "work2", Event.spanStart ⟨"work2", some p⟩ (some (rootSpan p))⟩,
       ⟨t, Gor.worker p "work2", Event.sleep 2⟩,
       ⟨t + 2, Gor.worker p "work2", Event.spanEnd ⟨"work2", some p⟩⟩] ∧
    endTimes (rootSpan p) (Act.call Gor.loop (Act.start t) (doRequest p)).trace = [t + 1] ∧
    endTimes ⟨"work1", some p⟩
      (workersTrace (Act.call Gor.loop (Act.start t) (doRequest p)).trace) = [t + 2] ∧
    endTimes ⟨"work2", some p⟩
      (workersTrace (Act.call Gor.loop (Act.start t) (doRequest p)).trace) = [t + 2] ∧
    t + 1 < t + 2 := by
  have htr : (Act.call Gor.loop (Act.start t) (doRequest p)).trace =
      [⟨t, Gor.loop, Event.spanStart (rootSpan p) (some mainSpan)⟩,
       ⟨t, Gor.loop, Event.goStmt (Gor.worker p "work1")⟩,
       ⟨t, Gor.loop, Event.goStmt (Gor.worker p "work2")⟩,
       ⟨t, Gor.loop, Event.sleep 1⟩,
       ⟨t + 1, Gor.loop, Event.spanEnd (rootSpan p)⟩] := by
    simp [Act.run, Act.call, Act.ret, Act.step, Act.start, doRequest, sleepOps]
  have hw : workersTrace (Act.call Gor.loop (Act.start t) (doRequest p)).trace =
      [⟨t, Gor.worker p "work1", Event.spanStart ⟨"work1", some p⟩ (some (rootSpan p))⟩,
       ⟨t, Gor.worker p "work1", Event.sleep 2⟩,
       ⟨t + 2, Gor.worker p "work1", Event.spanEnd ⟨"work1", some p⟩⟩,
       ⟨t, Gor.worker p "work2", Event.spanStart ⟨"work2", some p⟩ (some (rootSpan p))⟩,
       ⟨t, Gor.worker p "work2", Event.sleep 2⟩,
       ⟨t + 2, Gor.worker p "work2", Event.spanEnd ⟨"work2", some p⟩⟩] := by
    rw [htr]
    simp [workersTrace, goroutineTrace, Act.run, Act.call, Act.ret, Act.step, Act.start, op1,
      sleepOps]
  refine ⟨htr, ?_, ?_, hw, ?_, ?_, ?_, by omega⟩
  · simp [Act.run, Act.call, Act.ret, Act.step, Act.start, doRequest, sleepOps]
  · simp [Act.run, Act.call, Act.ret, Act.step, Act.start, doRequest, sleepOps]
  · rw [htr]; simp [endTimes, rootSpan]
  · rw [hw]; simp [endTimes, rootSpan]
  · rw [hw]; simp [endTimes, rootSpan]

/-- C5, at the failing input.  When `http.ListenAndServe` returns an error, `main` leaves
through `log.Fatal`: the process exits, the deferred `span.End()` does not run, and the span
"main" has been started once and is never ended.  (Were `main` to return, the deferred call
would end the span once.) -/
theorem main_span_not_ended_on_fatal (n : Nat) :
    (mainAct ⟨false, some true, n⟩).status = Status.exited ∧
    startCount mainSpan (mainAct ⟨false, some true, n⟩).trace = 1 ∧
    endCount mainSpan (mainAct ⟨false, some true, n⟩).trace = 0 ∧
    endCount mainSpan (mainAct ⟨false, some false, n⟩).trace = 1 := by
  simp [mainAct, main, initTracer, Act.run, Act.call, Act.ret, Act.step, Act.start, startCount,
    endCount, mainSpan]

theorem runLoop_replicate (fused : Bool) (t0 n : Nat) (d : Draws)
    (h : d.idx < endpoints.length) :
    ∃ s, runLoop fused (List.replicate n d) (LoopState.init t0) = some s ∧ s.pass = n ∧
      s.i = wrapInt n := by
  obtain ⟨s, hs, hp, _, hi, _, _⟩ := runLoop_init fused t0 (List.replicate n d)
    (fun x hx => by rw [List.eq_of_mem_replicate hx]; exact h)
  rw [List.length_replicate] at hp hi
  exact ⟨s, hs, hp, hi⟩

/-- C3, counterexample.  The pass number `2^63` does not use the index `2^63`: after
`2^63` passes the loop variable has wrapped to `-2^63`, and the observation of that pass
goes under the label "-9223372036854775808". -/
theorem loop_index_wraps_after_two_pow_63_passes :
    ∃ s, runLoop false (List.replicate (2 ^ 63) sampleDraw) (LoopState.init 0) = some s ∧
      s.pass = 2 ^ 63 ∧ s.i = -(2 ^ 63) ∧ s.i ≠ (s.pass : Int) ∧
      observations (tickAct false s sampleDraw "/bar").trace
        = [("-9223372036854775808", latencyOf false sampleDraw)] := by
  obtain ⟨s, hs, hp, hi⟩ := runLoop_replicate false 0 (2 ^ 63) sampleDraw (by decide)
  have hw : wrapInt ((2 ^ 63 : Nat) : Int) = -(2 ^ 63) := by decide
  rw [hw] at hi
  refine ⟨s, hs, hp, hi, ?_, ?_⟩
  · rw [hi, hp]
    decide
  · rw [tickAct_observations, hi]
    have : Itoa (-(2 ^ 63)) = "-9223372036854775808" := by decide
    rw [this]

/-- C3, amended.  For every pass number `k` below `2^63`, counted from 0, the loop variable
is `k` in that pass, and the pass records exactly one histogram observation, under the label
`strconv.Itoa(k)`.  In any pass whatever the single observation goes under the label
`strconv.Itoa(i)` for the current value of the loop variable `i`. -/
theorem histogram_label_is_pass_index (fused : Bool) (t0 : Nat) (ds : List Draws) (d : Draws)
    (req : String) (h : ∀ x ∈ ds, x.idx < endpoints.length) (hlen : ds.length < 2 ^ 63) :
    (∃ s, runLoop fused ds (LoopState.init t0) = some s ∧ s.pass = ds.length ∧
      s.i = (ds.length : Int) ∧
      observations (tickAct fused s d req).trace
        = [(Itoa (ds.length : Int), latencyOf fused d)]) ∧
    ∀ s0 : LoopState,
      observations (tickAct fused s0 d req).trace = [(Itoa s0.i, latencyOf fused d)] := by
  obtain ⟨s, hs, hp, _, hi, _, _⟩ := runLoop_init fused t0 ds h
  have hi2 : s.i = (ds.length : Int) := by
    rw [hi]
    apply wrapInt_small
    · exact Int.natCast_nonneg _
    · exact_mod_cast hlen
  refine ⟨⟨s, hs, hp, hi2, ?_⟩, fun s0 => tickAct_observations fused s0 d req⟩
  rw [tickAct_observations, hi2]

/-- Witness for C3: the pass after the three sample passes. -/
theorem histogram_label_is_pass_index_witness :
    (∀ x ∈ sampleDraws, x.idx < endpoints.length) ∧ sampleDraws.length < 2 ^ 63 ∧
    (∃ s, runLoop false sampleDraws (LoopState.init 0) = some s ∧ s.pass = sampleDraws.length ∧
      s.i = (sampleDraws.length : Int) ∧
      observations (tickAct false s sampleDraw "/bar").trace
        = [(Itoa (sampleDraws.length : Int), latencyOf false sampleDraw)]) ∧
    ∀ s0 : LoopState,
      observations (tickAct false s0 sampleDraw "/bar").trace
        = [(Itoa s0.i, latencyOf false sampleDraw)] :=
  ⟨by decide, by decide,
    histogram_label_is_pass_index false 0 sampleDraws sampleDraw "/bar" (by decide) (by decide)⟩

/-- C10, counterexample.  From pass `2^63 - 1` to the next pass the index does not increase
by one: it goes from `2^63 - 1` to `-2^63`. -/
theorem loop_index_step_is_not_one_at_wrap :
    ∃ s s', runLoop false (List.replicate (2 ^ 63 - 1) sampleDraw) (LoopState.init 0) = some s ∧
      tick false sampleDraw s = some s' ∧ s.i = 2 ^ 63 - 1 ∧ s'.i = -(2 ^ 63) ∧
      s'.i ≠ s.i + 1 := by
  obtain ⟨s, hs, _, hi⟩ := runLoop_replicate false 0 (2 ^ 63 - 1) sampleDraw (by decide)
  have hw : wrapInt ((2 ^ 63 - 1 : Nat) : Int) = 2 ^ 63 - 1 := by decide
  rw [hw] at hi
  have hreq : endpoints[sampleDraw.idx]? = some "/bar" := by decide
  refine ⟨s, _, hs, tick_some false sampleDraw s "/bar" hreq, hi, ?_, ?_⟩
  · dsimp only
    rw [hi]
    decide
  · dsimp only
    rw [hi]
    decide

/-- C10, amended.  In every pass the loop goroutine performs, in this order: the counter
increment, the histogram observation, the log record, the gauge update, the start of the
span "do-request", the two `go` statements, the one second sleep of `doRequest`, the end of
the span, and the two second sleep.  Passes do not overlap: the trace of the loop goroutine
after a pass is the trace before it followed by the events of the pass; everything emitted
earlier lies before the start of the pass, which is three seconds after the start of the
previous one, and everything the pass emits lies at or after its start.  The index starts
at 0 and is incremented as a Go `int`: by exactly one as long as it is below `2^63 - 1`. -/
theorem tick_events_ordered_and_sequential (fused : Bool) (t0 : Nat) (ds : List Draws)
    (d : Draws) (h : ∀ x ∈ ds, x.idx < endpoints.length) (hd : d.idx < endpoints.length) :
    ∃ s s' req, runLoop fused ds (LoopState.init t0) = some s ∧
      endpoints[d.idx]? = some req ∧ tick fused d s = some s' ∧
      runLoop fused (ds ++ [d]) (LoopState.init t0) = some s' ∧
      (tickAct fused s d req).trace.map (fun e => e.ev) =
        [Event.counterAdd req 1,
         Event.observe (Itoa s.i) (latencyOf fused d),
         Event.log Level.info "in progress ..."
           [Field.int "iteration" s.i, Field.float64 "latency" (latencyOf fused d)],
         Event.gaugeSet (temperatureOf fused d),
         Event.spanStart (rootSpan s.pass) (some mainSpan),
         Event.goStmt (Gor.worker s.pass "work1"),
         Event.goStmt (Gor.worker s.pass "work2"),
         Event.sleep 1,
         Event.spanEnd (rootSpan s.pass),
         Event.sleep 2] ∧
      s'.trace = s.trace ++ (tickAct fused s d req).trace ∧
      s.clock = t0 + 3 * ds.length ∧ s'.clock = s.clock + 3 ∧
      (∀ e ∈ s.trace, e.time < s.clock) ∧
      (∀ e ∈ (tickAct fused s d req).trace, s.clock ≤ e.time ∧ e.time < s'.clock) ∧
      (LoopState.init t0).i = 0 ∧ s.pass = ds.length ∧ s'.pass = s.pass + 1 ∧
      s'.i = wrapInt (s.i + 1) ∧
      (ds.length < 2 ^ 63 - 1 → s.i = (ds.length : Int) ∧ s'.i = s.i + 1) := by
  obtain ⟨s, hs, hp, hc, hi, _, ht⟩ := runLoop_init fused t0 ds h
  obtain ⟨req, hreq, _⟩ := endpoints_get d.idx hd
  refine ⟨s, _, req, hs, hreq, tick_some fused d s req hreq, ?_, ?_, rfl, hc, rfl, ht, ?_, rfl,
    hp, rfl, rfl, ?_⟩
  · rw [runLoop_append, hs]
    exact tick_some fused d s req hreq
  · rw [tickAct_trace]
    simp
  · intro e he
    rw [tickAct_trace] at he
    simp at he
    dsimp only
    rcases he with h1 | h1 | h1 | h1 | h1 | h1 | h1 | h1 | h1 | h1 <;> subst h1 <;>
      simp
  · intro hlen
    have hi2 : s.i = (ds.length : Int) := by
      rw [hi]
      apply wrapInt_small
      · exact Int.natCast_nonneg _
      · omega
    refine ⟨hi2, ?_⟩
    dsimp only
    rw [hi2]
    apply wrapInt_small
    · have := Int.natCast_nonneg ds.length
      omega
    · omega

/-- Witness for C10: the pass after the three sample passes. -/
theorem tick_events_ordered_and_sequential_witness :
    (∀ x ∈ sampleDraws, x.idx < endpoints.length) ∧ sampleDraw.idx < endpoints.length ∧
    ∃ s s' req, runLoop false sampleDraws (LoopState.init 0) = some s ∧
      endpoints[sampleDraw.idx]? = some req ∧ tick false sampleDraw s = some s' ∧
      runLoop false (sampleDraws ++ [sampleDraw]) (LoopState.init 0) = some s' ∧
      (tickAct false s sampleDraw req).trace.map (fun e => e.ev) =
        [Event.counterAdd req 1,
         Event.observe (Itoa s.i) (latencyOf false sampleDraw),
         Event.log Level.info "in progress ..."
           [Field.int "iteration" s.i, Field.float64 "latency" (latencyOf false sampleDraw)],
         Event.gaugeSet (temperatureOf false sampleDraw),
         Event.spanStart (rootSpan s.pass) (some mainSpan),
         Event.goStmt (Gor.worker s.pass "work1"),
         Event.goStmt (Gor.worker s.pass "work2"),
         Event.sleep 1,
         Event.spanEnd (rootSpan s.pass),
         Event.sleep 2] ∧
      s'.trace = s.trace ++ (tickAct false s sampleDraw req).trace ∧
      s.clock = 0 + 3 * sampleDraws.length ∧ s'.clock = s.clock + 3 ∧
      (∀ e ∈ s.trace, e.time < s.clock) ∧
      (∀ e ∈ (tickAct false s sampleDraw req).trace, s.clock ≤ e.time ∧ e.time < s'.clock) ∧
      (LoopState.init 0).i = 0 ∧ s.pass = sampleDraws.length ∧ s'.pass = s.pass + 1 ∧
      s'.i = wrapInt (s.i + 1) ∧
      (sampleDraws.length < 2 ^ 63 - 1 → s.i = (sampleDraws.length : Int) ∧ s'.i = s.i + 1) :=
  ⟨by decide, by decide,
    tick_events_ordered_and_sequential false 0 sampleDraws sampleDraw (by decide) (by decide)⟩

/-! ## Spans of the passes -/

theorem startCount_append (x : Span) (l1 l2 : List Timed) :
    startCount x (l1 ++ l2) = startCount x l1 + startCount x l2 := by
  simp [startCount]

theorem endCount_append (x : Span) (l1 l2 : List Timed) :
    endCount x (l1 ++ l2) = endCount x l1 + endCount x l2 := by
  simp [endCount]

theorem workersTrace_append (l1 l2 : List Timed) :
    workersTrace (l1 ++ l2) = workersTrace l1 ++ workersTrace l2 := by
  simp [workersTrace]

/-- The spans started and ended by one pass and by the goroutines it launches. -/
theorem tickAct_span_counts (fused : Bool) (s : LoopState) (d : Draws) (req : String)
    (k : Nat) :
    startCount (rootSpan k) (tickAct fused s d req).trace = (if k = s.pass then 1 else 0) ∧
    endCount (rootSpan k) (tickAct fused s d req).trace = (if k = s.pass then 1 else 0) ∧
    startCount ⟨"work1", some k⟩ (workersTrace (tickAct fused s d req).trace)
      = (if k = s.pass then 1 else 0) ∧
    endCount ⟨"work1", some k⟩ (workersTrace (tickAct fused s d req).trace)
      = (if k = s.pass then 1 else 0) ∧
    startCount ⟨"work2", some k⟩ (workersTrace (tickAct fused s d req).trace)
      = (if k = s.pass then 1 else 0) ∧
    endCount ⟨"work2", some k⟩ (workersTrace (tickAct fused s d req).trace)
      = (if k = s.pass then 1 else 0) := by
  rw [tickAct_trace]
  by_cases hk : k = s.pass
  · subst hk
    simp [startCount, endCount, rootSpan, workersTrace, goroutineTrace, Act.run, Act.call,
      Act.ret, Act.step, Act.start, op1, sleepOps]
  · have hk2 : ¬ s.pass = k := fun h => hk h.symm
    simp [startCount, endCount, rootSpan, workersTrace, goroutineTrace, Act.run, Act.call,
      Act.ret, Act.step, Act.start, op1, sleepOps, hk, hk2]

/-- Over any number of passes, for every pass `k` made, the span "do-request" of the pass is
started once and ended once by the loop goroutine, and each of the spans "work1" and "work2"
of the pass is started once and ended once by the goroutine launched for it; no span of a
pass not yet made occurs. -/
theorem tick_spans_ended_once (fused : Bool) (ds : List Draws) :
    ∀ s0 : LoopState, (∀ d ∈ ds, d.idx < endpoints.length) →
      ∃ s, runLoop fused ds s0 = some s ∧ ∀ k : Nat,
        (startCount (rootSpan k) s.trace = startCount (rootSpan k) s0.trace
          + (if s0.pass ≤ k ∧ k < s0.pass + ds.length then 1 else 0)) ∧
        (endCount (rootSpan k) s.trace = endCount (rootSpan k) s0.trace
          + (if s0.pass ≤ k ∧ k < s0.pass + ds.length then 1 else 0)) ∧
        (∀ name, name = "work1" ∨ name = "work2" →
          startCount ⟨name, some k⟩ (workersTrace s.trace)
            = startCount ⟨name, some k⟩ (workersTrace s0.trace)
              + (if s0.pass ≤ k ∧ k < s0.pass + ds.length then 1 else 0) ∧
          endCount ⟨name, some k⟩ (workersTrace s.trace)
            = endCount ⟨name, some k⟩ (workersTrace s0.trace)
              + (if s0.pass ≤ k ∧ k < s0.pass + ds.length then 1 else 0)) := by
  induction ds with
  | nil =>
    intro s0 _
    refine ⟨s0, rfl, fun k => ?_⟩
    simp
  | cons d ds ih =>
    intro s0 h
    obtain ⟨req, hreq, _⟩ := endpoints_get d.idx (h d (List.mem_cons_self _ _))
    obtain ⟨s, hs, hk⟩ := ih
      { i := wrapInt (s0.i + 1)
        pass := s0.pass + 1
        clock := s0.clock + 3
        reg := (tickAct fused s0 d req).trace.foldl (fun r e => r.apply e.ev) s0.reg
        trace := s0.trace ++ (tickAct fused s0 d req).trace }
      (fun x hx => h x (List.mem_cons_of_mem _ hx))
    refine ⟨s, ?_, fun k => ?_⟩
    · simp [runLoop, tick_some fused d s0 req hreq, hs]
    · obtain ⟨c1, c2, c3, c4, c5, c6⟩ := tickAct_span_counts fused s0 d req k
      obtain ⟨h1, h2, h3⟩ := hk k
      dsimp only at h1 h2 h3
      rw [startCount_append] at h1
      rw [endCount_append] at h2
      simp only [workersTrace_append, startCount_append, endCount_append] at h3
      simp only [List.length_cons]
      refine ⟨?_, ?_, ?_⟩
      · rw [h1, c1]
        split_ifs <;> omega
      · rw [h2, c2]
        split_ifs <;> omega
      · intro name hname
        obtain ⟨h4, h5⟩ := h3 name hname
        rcases hname with rfl | rfl
        · rw [h4, h5, c3, c4]
          constructor <;> split_ifs <;> omega
        · rw [h4, h5, c5, c6]
          constructor <;> split_ifs <;> omega

/-! ## Claims about the random values -/

/-- C1, counterexample.  With `min = 20`, `max = 30` and the draw `1 - 2^-53`, which lies in
`[0, 1)`, `randomFloat` returns `30`, so the result is not below `max`; this holds whether
or not the product and the sum are fused, and the same happens with `min = 1`, `max = 2`.
When `max - min` overflows, as for `min = -maxFloat`, `max = maxFloat`, the result is
`+Inf` on the draw `0.5` and NaN on the draw `0`, which lie outside the range altogether. -/
theorem randomFloat_reaches_max :
    F64.isFloat (F64.ofInt 20) = true ∧ F64.isFloat (F64.ofInt 30) = true ∧
    F64.lt (F64.ofInt 20) (F64.ofInt 30) = true ∧ F64.isUnitDraw topDraw = true ∧
    randomFloat false (F64.ofInt 20) (F64.ofInt 30) topDraw = F64.ofInt 30 ∧
    randomFloat true (F64.ofInt 20) (F64.ofInt 30) topDraw = F64.ofInt 30 ∧
    F64.lt (randomFloat false (F64.ofInt 20) (F64.ofInt 30) topDraw) (F64.ofInt 30) = false ∧
    F64.lt (randomFloat true (F64.ofInt 20) (F64.ofInt 30) topDraw) (F64.ofInt 30) = false ∧
    F64.lt (randomFloat false (F64.ofInt 1) (F64.ofInt 2) topDraw) (F64.ofInt 2) = false ∧
    F64.isFloat maxFloat = true ∧ F64.lt (F64.neg maxFloat) maxFloat = true ∧
    F64.isUnitDraw (F64.ofFrac 1 2) = true ∧ F64.isUnitDraw (F64.ofInt 0) = true ∧
    randomFloat false (F64.neg maxFloat) maxFloat (F64.ofFrac 1 2) = F64.inf false ∧
    randomFloat true (F64.neg maxFloat) maxFloat (F64.ofFrac 1 2) = F64.inf false ∧
    randomFloat false (F64.neg maxFloat) maxFloat (F64.ofInt 0) = F64.nan ∧
    F64.le (F64.neg maxFloat) (randomFloat false (F64.neg maxFloat) maxFloat (F64.ofInt 0))
      = false := by
  decide!

/-- C1, amended.  For all `float64` numbers `min < max` whose difference `max - min` is finite
and every draw `r` in `[0, 1)`, the result of `randomFloat(min, max)` satisfies
`min <= result <= max`.  On the range the loop uses, `randomFloat(0, 1)` returns the draw
unchanged, so the latency of every pass satisfies `0 <= latency < 1`. -/
theorem randomFloat_in_closed_range (fused : Bool) (min max r : F64) (idx : Nat) (temp : F64)
    (hmin : F64.isFloat min = true) (hmax : F64.isFloat max = true)
    (hlt : F64.lt min max = true) (hd : F64.isFloat (F64.sub max min) = true)
    (hr : F64.isUnitDraw r = true) :
    F64.le min (randomFloat fused min max r) = true ∧
    F64.le (randomFloat fused min max r) max = true ∧
    latencyOf fused ⟨r, idx, temp⟩ = r ∧
    F64.le (F64.ofInt 0) (latencyOf fused ⟨r, idx, temp⟩) = true ∧
    F64.lt (latencyOf fused ⟨r, idx, temp⟩) (F64.ofInt 1) = true := by
  obtain ⟨h1, h2⟩ := randomFloat_between fused min max r hmin hmax hlt hd hr
  have h3 : latencyOf fused ⟨r, idx, temp⟩ = r := randomFloat_zero_one fused r hr
  refine ⟨h1, h2, h3, ?_, ?_⟩
  · rw [h3]
    unfold F64.isUnitDraw at hr
    rw [Bool.and_eq_true, Bool.and_eq_true] at hr
    exact hr.1.2
  · rw [h3]
    unfold F64.isUnitDraw at hr
    rw [Bool.and_eq_true, Bool.and_eq_true] at hr
    exact hr.2

/-- Witness for C1: `min = 20`, `max = 30` and the largest draw. -/
theorem randomFloat_in_closed_range_witness :
    F64.isFloat (F64.ofInt 20) = true ∧ F64.isFloat (F64.ofInt 30) = true ∧
    F64.lt (F64.ofInt 20) (F64.ofInt 30) = true ∧
    F64.isFloat (F64.sub (F64.ofInt 30) (F64.ofInt 20)) = true ∧
    F64.isUnitDraw topDraw = true ∧
    F64.le (F64.ofInt 20) (randomFloat false (F64.ofInt 20) (F64.ofInt 30) topDraw) = true ∧
    F64.le (randomFloat false (F64.ofInt 20) (F64.ofInt 30) topDraw) (F64.ofInt 30) = true ∧
    latencyOf false ⟨topDraw, 1, topDraw⟩ = topDraw ∧
    F64.le (F64.ofInt 0) (latencyOf false ⟨topDraw, 1, topDraw⟩) = true ∧
    F64.lt (latencyOf false ⟨topDraw, 1, topDraw⟩) (F64.ofInt 1) = true :=
  ⟨by decide!, by decide!, by decide!, by decide!, by decide!,
    randomFloat_in_closed_range false (F64.ofInt 20) (F64.ofInt 30) topDraw 1 topDraw
      (by decide!) (by decide!) (by decide!) (by decide!) (by decide!)⟩

/-- C4, counterexample.  On the draw `1 - 2^-53` the loop writes `30` to the gauge, which
is not in `[20, 30)`. -/
theorem temperature_reaches_thirty :
    F64.isUnitDraw sampleDraw.temp = true ∧
    temperatureOf false sampleDraw = F64.ofInt 30 ∧
    temperatureOf true sampleDraw = F64.ofInt 30 ∧
    F64.lt (temperatureOf false sampleDraw) (F64.ofInt 30) = false ∧
    F64.lt (temperatureOf true sampleDraw) (F64.ofInt 30) = false := by
  decide!

/-- C4, amended.  For every pass and every draw `r` in `[0, 1)`, the value `20 + r*10` that
the loop writes to the gauge lies in the closed range `[20, 30]` and equals what
`randomFloat(20, 30)` returns on the same draw; after the pass the gauge holds exactly that
value, whatever it held before. -/
theorem temperature_in_closed_range (fused : Bool) (s : LoopState) (d : Draws)
    (hr : F64.isUnitDraw d.temp = true) (hi : d.idx < endpoints.length) :
    F64.le (F64.ofInt 20) (temperatureOf fused d) = true ∧
    F64.le (temperatureOf fused d) (F64.ofInt 30) = true ∧
    temperatureOf fused d = randomFloat fused (F64.ofInt 20) (F64.ofInt 30) d.temp ∧
    ∃ s', tick fused d s = some s' ∧ s'.reg.temperature = temperatureOf fused d := by
  obtain ⟨n, hn, _, hlt⟩ := (isUnitDraw_iff _).1 hr
  obtain ⟨w, hw, h1, h2⟩ := temperature_units fused n hlt
  have hT : temperatureOf fused d = F64.fin w := by
    unfold temperatureOf
    rw [hn, ofInt_ten, ofInt_twenty]
    exact hw
  have hsub : F64.sub (F64.ofInt 30) (F64.ofInt 20) = F64.ofInt 10 := by decide!
  obtain ⟨req, hreq, _⟩ := endpoints_get d.idx hi
  refine ⟨?_, ?_, ?_, _, tick_some fused d s req hreq, ?_⟩
  · rw [hT, ofInt_twenty, le_fin, decide_eq_true_eq]
    exact_mod_cast h1
  · rw [hT, ofInt_thirty, le_fin, decide_eq_true_eq]
    exact_mod_cast h2
  · unfold temperatureOf randomFloat
    rw [hsub]
  · dsimp only
    rw [tick_temperature]

/-- Witness for C4: the sample pass from the initial state. -/
theorem temperature_in_closed_range_witness :
    F64.isUnitDraw sampleDraw.temp = true ∧ sampleDraw.idx < endpoints.length ∧
    F64.le (F64.ofInt 20) (temperatureOf false sampleDraw) = true ∧
    F64.le (temperatureOf false sampleDraw) (F64.ofInt 30) = true ∧
    temperatureOf false sampleDraw
      = randomFloat false (F64.ofInt 20) (F64.ofInt 30) sampleDraw.temp ∧
    ∃ s', tick false sampleDraw (LoopState.init 0) = some s' ∧
      s'.reg.temperature = temperatureOf false sampleDraw :=
  ⟨by decide!, by decide,
    temperature_in_closed_range false (LoopState.init 0) sampleDraw (by decide!) (by decide)⟩

/-! ## The histogram -/

theorem findBucket_le_length (bs : List F64) (v : F64) : findBucket bs v ≤ bs.length := by
  induction bs with
  | nil => simp [findBucket]
  | cons b bs ih =>
    unfold findBucket
    split
    · omega
    · simp only [List.length_cons]
      omega

/-- The bucket of `v` is the first one whose upper bound `b` satisfies `v <= b`. -/
theorem findBucket_first (bs : List F64) (v : F64) :
    (∀ b, bs[findBucket bs v]? = some b → F64.le v b = true) ∧
    (∀ j b, j < findBucket bs v → bs[j]? = some b → F64.le v b = false) := by
  induction bs with
  | nil => simp [findBucket]
  | cons c cs ih =>
    unfold findBucket
    by_cases h : F64.le v c = true
    · rw [if_pos h]
      refine ⟨fun b hb => ?_, fun j b hj _ => absurd hj (by omega)⟩
      simp only [List.getElem?_cons_zero, Option.some.injEq] at hb
      rw [← hb]
      exact h
    · rw [if_neg h]
      refine ⟨fun b hb => ?_, fun j b hj hb => ?_⟩
      · rw [List.getElem?_cons_succ] at hb
        exact ih.1 b hb
      · cases j with
        | zero =>
          simp only [List.getElem?_cons_zero, Option.some.injEq] at hb
          rw [← hb]
          simpa using h
        | succ j =>
          rw [List.getElem?_cons_succ] at hb
          exact ih.2 j b (by omega) hb

theorem bump_of_length_le (cs : List Nat) : ∀ k, cs.length ≤ k → bump cs k = cs := by
  induction cs with
  | nil => intro k _; cases k <;> rfl
  | cons c cs ih =>
    intro k hk
    cases k with
    | zero => simp at hk
    | succ k =>
      simp only [bump]
      rw [ih k (by simpa using hk)]

/-- C8, counterexample.  The value `0.35` is put into the bucket whose upper bound is
`0.35`, together with the values just above `0.30`, and not into a bucket that starts at
`0.35`; the value `0.0` shares the first bucket with `0.05`; the eighth bound is neither the
`float64` nearest to `0.40` nor the `float64` product `0.05 * 8`, and the value `0.40`
lies above it; the last bound is not `1.00`. -/
theorem observation_on_bound_goes_below :
    findBucket upperBounds (F64.ofFrac 35 100) = 6 ∧
    upperBounds[6]? = some (F64.ofFrac 35 100) ∧
    findBucket upperBounds (F64.ofInt 0) = findBucket upperBounds (F64.ofFrac 1 20) ∧
    upperBounds[7]? ≠ some (F64.ofFrac 4 10) ∧
    upperBounds[7]? ≠ some (F64.mul (F64.ofFrac 1 20) (F64.ofInt 8)) ∧
    findBucket upperBounds (F64.ofFrac 4 10) = 8 ∧
    upperBounds[19]? ≠ some (F64.ofInt 1) := by
  decide!

theorem upperBounds_facts :
    upperBounds.length = 20 ∧
    List.Pairwise (fun x y => F64.lt x y = true) upperBounds ∧
    upperBounds[6]? = some (F64.ofFrac 35 100) ∧
    (F64.lt (upperBounds.getD 7 F64.nan) (F64.ofFrac 4 10) = true) ∧
    upperBounds[19]? = some (F64.fin (2 ^ 1074 + 2 ^ 1022)) := by
  decide!

theorem upperBounds_close :
    ∀ k < 20, F64.isFloat (upperBounds.getD k F64.nan) = true ∧
      |20 * (upperBounds.getD k F64.nan).units - (k + 1) * 2 ^ 1074| ≤ 20 * 2 ^ 1023 := by
  decide!

theorem scenario_buckets :
    findBucket upperBounds (F64.ofFrac 37 100) = 7 ∧
    F64.lt (upperBounds.getD 6 F64.nan) (F64.ofFrac 37 100) = true ∧
    F64.le (F64.ofFrac 37 100) (upperBounds.getD 7 F64.nan) = true ∧
    (Histogram.empty.observe (F64.ofFrac 37 100)).buckets
      = [0, 0, 0, 0, 0, 0, 0, 1, 0, 0, 0, 0, 0, 0, 0, 0, 0, 0, 0, 0] ∧
    (Histogram.empty.observe (F64.ofFrac 37 100)).count = 1 ∧
    findBucket upperBounds (F64.ofInt 0) = 0 ∧
    findBucket upperBounds (F64.ofFrac 1 20) = 0 ∧
    findBucket upperBounds (F64.ofInt 2) = 20 := by
  decide!

theorem sampleDraw_latency (fused : Bool) : latencyOf fused sampleDraw = F64.ofFrac 37 100 := by
  have h1 : sampleDraw.latency = F64.ofFrac 37 100 := by decide!
  have h2 : F64.isUnitDraw (F64.ofFrac 37 100) = true := by decide!
  rw [latencyOf, h1]
  exact randomFloat_zero_one fused (F64.ofFrac 37 100) h2

/-- The first pass of the loop with the sample draws. -/
theorem scenario_tick (fused : Bool) (t0 : Nat) :
    ∃ s', tick fused sampleDraw (LoopState.init t0) = some s' ∧
      s'.reg.requests "/bar" = (LoopState.init t0).reg.requests "/bar" + 1 ∧
      observations (tickAct fused (LoopState.init t0) sampleDraw "/bar").trace
        = [("0", F64.ofFrac 37 100)] ∧
      s'.reg.requestDuration "0" = Histogram.empty.observe (F64.ofFrac 37 100) := by
  have hreq : endpoints[sampleDraw.idx]? = some "/bar" := rfl
  have hitoa0 : Itoa 0 = "0" := by decide
  have hitoa : Itoa (LoopState.init t0).i = "0" := hitoa0
  have hinit : (LoopState.init t0).reg.requestDuration "0" = Histogram.empty := rfl
  refine ⟨_, tick_some fused sampleDraw (LoopState.init t0) "/bar" hreq, ?_, ?_, ?_⟩
  · rw [tick_requests, if_pos rfl]
  · rw [tickAct_observations, hitoa, sampleDraw_latency]
  · rw [tick_histogram, hitoa, if_pos rfl, sampleDraw_latency, hinit]

/-- C8, amended.  The histogram has exactly 20 bucket bounds, the running `float64` sums
`0.05`, `0.05 + 0.05`, ...: they increase strictly and the `k`-th lies within `2^-51` of
`0.05 * k` (the seventh is `0.35`, the eighth is just below `0.40`, the last is
`1 + 2^-52`).  An observed value lands in the first bucket whose upper bound is not below it,
so a bucket covers the range `(lower, upper]`.  In the scenario iteration 0, latency `0.37`,
endpoint "/bar", the observation is recorded under the label "0" in the bucket with index 7,
above `0.35` and up to the eighth bound, and the "/bar" counter increases by 1.  Every value
is recorded (the count grows by one): a value above the last bound enters no bucket with a
finite bound, a value up to `0.05`, such as `0`, enters the first bucket. -/
theorem histogram_buckets_upper_inclusive (fused : Bool) (t0 : Nat) (v : F64)
    (h : Histogram) :
    upperBounds.length = 20 ∧
    List.Pairwise (fun x y => F64.lt x y = true) upperBounds ∧
    (∀ k < 20, F64.isFloat (upperBounds.getD k F64.nan) = true ∧
      |20 * (upperBounds.getD k F64.nan).units - (k + 1) * 2 ^ 1074| ≤ 20 * 2 ^ 1023) ∧
    upperBounds[6]? = some (F64.ofFrac 35 100) ∧
    (F64.lt (upperBounds.getD 7 F64.nan) (F64.ofFrac 4 10) = true) ∧
    upperBounds[19]? = some (F64.fin (2 ^ 1074 + 2 ^ 1022)) ∧
    findBucket upperBounds v ≤ 20 ∧
    (∀ b, upperBounds[findBucket upperBounds v]? = some b → F64.le v b = true) ∧
    (∀ j b, j < findBucket upperBounds v → upperBounds[j]? = some b → F64.le v b = false) ∧
    (∃ s', tick fused sampleDraw (LoopState.init t0) = some s' ∧
      s'.reg.requests "/bar" = (LoopState.init t0).reg.requests "/bar" + 1 ∧
      observations (tickAct fused (LoopState.init t0) sampleDraw "/bar").trace
        = [("0", F64.ofFrac 37 100)] ∧
      s'.reg.requestDuration "0" = Histogram.empty.observe (F64.ofFrac 37 100)) ∧
    findBucket upperBounds (F64.ofFrac 37 100) = 7 ∧
    F64.lt (upperBounds.getD 6 F64.nan) (F64.ofFrac 37 100) = true ∧
    F64.le (F64.ofFrac 37 100) (upperBounds.getD 7 F64.nan) = true ∧
    (Histogram.empty.observe (F64.ofFrac 37 100)).buckets
      = [0, 0, 0, 0, 0, 0, 0, 1, 0, 0, 0, 0, 0, 0, 0, 0, 0, 0, 0, 0] ∧
    (Histogram.empty.observe (F64.ofFrac 37 100)).count = 1 ∧
    (h.observe v).count = h.count + 1 ∧
    (h.buckets.length = 20 → findBucket upperBounds v = 20 →
      (h.observe v).buckets = h.buckets) ∧
    findBucket upperBounds (F64.ofInt 0) = 0 ∧
    findBucket upperBounds (F64.ofFrac 1 20) = 0 ∧
    findBucket upperBounds (F64.ofInt 2) = 20 := by
  obtain ⟨f1, f2, f3, f4, f5⟩ := upperBounds_facts
  obtain ⟨g1, g2, g3, g4, g5, g6, g7, g8⟩ := scenario_buckets
  have hlen := findBucket_le_length upperBounds v
  rw [f1] at hlen
  refine ⟨f1, f2, upperBounds_close, f3, f4, f5, hlen, (findBucket_first upperBounds v).1,
    (findBucket_first upperBounds v).2, scenario_tick fused t0, g1, g2, g3, g4, g5, rfl, ?_,
    g6, g7, g8⟩
  intro hl hk
  have hb : (h.observe v).buckets = bump h.buckets (findBucket upperBounds v) := rfl
  rw [hb]
  exact bump_of_length_le _ _ (by omega)

end Telemetry

